import Mathlib

/-!
# Space-to-batch / batch-to-space helpers of libnd4j

A shallow embedding of `libnd4j/include/ops/declarable/helpers/s_t_b.h`.

* `_prepare` (lines 41-80 of the header) is translated statement by statement.  Its effect is the
  sequence of `_execute` calls it issues, one per batch-layout batch index; the embedding returns
  that sequence.  C++ integer division and remainder are the truncating ones (`Int.tdiv`,
  `Int.tmod`); a zero divisor or a read outside an array is undefined behaviour and is modelled by
  `none`.  The two batch extents that the source stores in an `int` are reduced to 32 bits.
* The bodies of `_execute`, `_spaceToBatch`, `_batchToSpace`, `spaceToBatch` and `batchToSpace`
  are not part of the header (it only declares them).  They are modelled from the design document
  of the component, and every such definition says so in its doc comment.
-/

set_option autoImplicit false

namespace nd4j.ops.helpers

/-! ## Data model -/

/-- The 64-bit signed index type of the library.  The indices and offsets that `_prepare` derives
are obtained from a non-negative loop counter by division and remainder, which cannot overflow,
so they are unbounded integers; the two extents that the source stores in an `int` go through
`narrowToInt`.  The two buffer offsets are products with a stride; no statement below depends on
their value. -/
abbrev Nd4jLong := Int

/-- The tensor abstraction consumed by the helpers (`NDArray.h` is outside these sources): the
per-axis extents, the per-axis strides and the elements.  The elements are addressed by their
multi-index `[b, s_0, ..., s_(N-1), c]`; `bufferWithOffset (b * strides[0])` of the source is the
slice of axis 0 at index `b`. -/
structure NDArray (α : Type) where
  /-- Extents, one per axis: batch, spatial axes, channels. -/
  shape : List Nd4jLong
  /-- Strides in elements, one per axis. -/
  strides : List Nd4jLong
  /-- Element stored at a multi-index. -/
  data : List Nd4jLong → α
  /-- The shape descriptor holds one stride per axis. -/
  strides_length : strides.length = shape.length
  /-- Extents are non-negative. -/
  shape_nonneg : ∀ e ∈ shape, 0 ≤ e

/-- Extent of axis `dim`, `NDArray::sizeAt`, a 64-bit value. -/
def NDArray.sizeAt {α : Type} (a : NDArray α) (dim : Nat) : Nd4jLong :=
  a.shape.getD dim 0

/-- Strides of the array, `NDArray::stridesOf`. -/
def NDArray.stridesOf {α : Type} (a : NDArray α) : List Nd4jLong :=
  a.strides

/-- C++ `a / b` on signed integers: truncating, undefined for a zero divisor. -/
def cDiv (a b : Nd4jLong) : Option Nd4jLong :=
  if b = 0 then none else some (Int.tdiv a b)

/-- C++ `a % b` on signed integers: remainder of the truncating division, undefined for a zero
divisor. -/
def cMod (a b : Nd4jLong) : Option Nd4jLong :=
  if b = 0 then none else some (Int.tmod a b)

/-- Conversion of a 64-bit value to the 32-bit `int` of lines 49-50 and 64: the value modulo
`2^32`, taken in `[-2^31, 2^31)`.  A value in `[0, 2^31)` is kept. -/
def narrowToInt (x : Nd4jLong) : Int :=
  (x + 2147483648) % 4294967296 - 2147483648

/-- Turns a list of possibly undefined results into the list of results, undefined as soon as one
of them is. -/
def collect {β : Type} : List (Option β) → Option (List β)
  | [] => some []
  | none :: _ => none
  | some x :: rest => (collect rest).map (fun xs => x :: xs)

/-! ## `_prepare`, from the source -/

/-- The arguments of one `_execute` call issued by `_prepare` (line 78).  `space_b` and `batch_b`
identify the slices that `bufferWithOffset (space_offset)` and `bufferWithOffset (batch_offset)`
point at. -/
structure ExecuteArgs where
  space_b : Nd4jLong
  space_offset : Nd4jLong
  space_shape : List Nd4jLong
  space_strides : List Nd4jLong
  block_shape : List Nd4jLong
  pad_start : List Nd4jLong
  block_offsets : List Nd4jLong
  batch_b : Nd4jLong
  batch_offset : Nd4jLong
  batch_shape : List Nd4jLong
  batch_strides : List Nd4jLong
deriving DecidableEq

/-- The inner loop of `_prepare` (lines 68-71):
`for (block_dim = NUM_BLOCK_DIMS - 1; block_dim >= 0; --block_dim)`.  The first argument is
`block_dim + 1`, the number of axes still to be visited; the offsets already stored, those of the
axes above `block_dim`, are the last argument.  Axis 0 stores the remaining quotient without a
remainder; the division by `block_shape[block_dim]` is evaluated on every axis, axis 0 included. -/
def blockOffsetsLoop (block_shape : List Nd4jLong) :
    Nat → Nd4jLong → List Nd4jLong → Option (List Nd4jLong)
  | 0, _, block_offsets => some block_offsets
  | block_dim + 1, block_index, block_offsets =>
    match block_shape[block_dim]? with
    | none => none
    | some bs =>
      if 0 < block_dim then
        (cMod block_index bs).bind fun off =>
          (cDiv block_index bs).bind fun q =>
            blockOffsetsLoop block_shape block_dim q (off :: block_offsets)
      else
        (cDiv block_index bs).bind fun q =>
          blockOffsetsLoop block_shape block_dim q (block_index :: block_offsets)

/-- The index of the space batch, `space_b = batch_b % space_size` (line 65). -/
def spaceB (batch_b space_size : Nd4jLong) : Option Nd4jLong :=
  cMod batch_b space_size

/-- The index of the block, `block_index = batch_b / space_size` (line 66). -/
def blockIndex (batch_b space_size : Nd4jLong) : Option Nd4jLong :=
  cDiv batch_b space_size

/-- The offsets of the block inside its cell, lines 66-71: the block index unpacked by the inner
loop over all `NUM_BLOCK_DIMS` axes. -/
def blockOffsets (NUM_BLOCK_DIMS : Nat) (block_shape : List Nd4jLong)
    (batch_b space_size : Nd4jLong) : Option (List Nd4jLong) :=
  (blockIndex batch_b space_size).bind fun block_index =>
    blockOffsetsLoop block_shape NUM_BLOCK_DIMS block_index []

/-- The local arrays filled by the first loop of `_prepare` (lines 52-58). -/
structure PrepareArrays where
  pad_start : List Nd4jLong
  block_shape : List Nd4jLong
  space_shape : List Nd4jLong
  batch_shape : List Nd4jLong
deriving DecidableEq

/-- Lines 52-58: `pad_start[d] = padding_array[2 * d]`, `block_shape[d] = block_array[d]`,
`space_shape[d] = space->sizeAt (d + 1)`, `batch_shape[d] = batch->sizeAt (d + 1)`. -/
def prepareArrays {α : Type} (NUM_BLOCK_DIMS : Nat) (space batch : NDArray α)
    (block_array padding_array : List Nd4jLong) : PrepareArrays :=
  { pad_start := (List.range NUM_BLOCK_DIMS).map fun block_dim =>
      padding_array.getD (block_dim * 2) 0
    block_shape := (List.range NUM_BLOCK_DIMS).map fun block_dim => block_array.getD block_dim 0
    space_shape := (List.range NUM_BLOCK_DIMS).map fun block_dim => space.sizeAt (block_dim + 1)
    batch_shape := (List.range NUM_BLOCK_DIMS).map fun block_dim => batch.sizeAt (block_dim + 1) }

/-- Every array read of `_prepare` is inside its array: the two tensors have the axes
`0 .. NUM_BLOCK_DIMS`, `block_array` has `NUM_BLOCK_DIMS` entries and `padding_array` has
`NUM_BLOCK_DIMS * 2`. -/
def readsInBounds {α : Type} (NUM_BLOCK_DIMS : Nat) (space batch : NDArray α)
    (block_array padding_array : List Nd4jLong) : Bool :=
  decide (NUM_BLOCK_DIMS + 1 ≤ space.shape.length)
    && decide (NUM_BLOCK_DIMS + 1 ≤ batch.shape.length)
    && decide (NUM_BLOCK_DIMS ≤ block_array.length)
    && decide (NUM_BLOCK_DIMS * 2 ≤ padding_array.length)

/-- One pass of the batch loop of `_prepare` (lines 65-78) for the loop counter `batch_b`: the
arguments of the `_execute` call it issues.  `space_size` is the `const int` of line 50. -/
def prepareBatch {α : Type} (NUM_BLOCK_DIMS : Nat) (space batch : NDArray α)
    (arrays : PrepareArrays) (batch_b : Nd4jLong) : Option ExecuteArgs :=
  let space_size := narrowToInt (space.sizeAt 0)
  (spaceB batch_b space_size).bind fun space_b =>
    (blockOffsets NUM_BLOCK_DIMS arrays.block_shape batch_b space_size).bind fun block_offsets =>
      some
        { space_b := space_b
          space_offset := space_b * space.stridesOf.getD 0 0
          space_shape := arrays.space_shape
          space_strides := space.stridesOf.drop 1
          block_shape := arrays.block_shape
          pad_start := arrays.pad_start
          block_offsets := block_offsets
          batch_b := batch_b
          batch_offset := batch_b * batch.stridesOf.getD 0 0
          batch_shape := arrays.batch_shape
          batch_strides := batch.stridesOf.drop 1 }

/-- `_prepare<NUM_BLOCK_DIMS, B2S>` (lines 41-80): the `_execute` calls issued by the batch loop
`for (batch_b = 0; batch_b < batch_size; ++batch_b)`, in order.  The template argument `B2S` is
only forwarded to `_execute`, so the calls are the same in both directions.  `batch_size` is
the `const int` of line 49.  The result is undefined when a read leaves its array or a divisor
is zero. -/
def _prepare {α : Type} (NUM_BLOCK_DIMS : Nat) (space batch : NDArray α)
    (block_array padding_array : List Nd4jLong) : Option (List ExecuteArgs) :=
  if readsInBounds NUM_BLOCK_DIMS space batch block_array padding_array then
    let batch_size := narrowToInt (batch.sizeAt 0)
    let arrays := prepareArrays NUM_BLOCK_DIMS space batch block_array padding_array
    collect ((List.range batch_size.toNat).map fun batch_b : Nat =>
      prepareBatch NUM_BLOCK_DIMS space batch arrays (batch_b : Nd4jLong))
  else none

/-! ## Element copy and entry points, modelled from the design document -/

/-- All multi-indices of a box with the given extents, in row-major order. -/
def grid : List Nd4jLong → List (List Nd4jLong)
  | [] => [[]]
  | n :: rest =>
    (List.range n.toNat).flatMap fun i : Nat =>
      (grid rest).map fun idx => (i : Nd4jLong) :: idx

/-- The multi-index lies inside the box with the given extents. -/
def inBounds (shape idx : List Nd4jLong) : Prop :=
  idx.length = shape.length
    ∧ ∀ d, d < shape.length → 0 ≤ idx.getD d 0 ∧ idx.getD d 0 < shape.getD d 0

instance inBoundsDecidable (shape idx : List Nd4jLong) : Decidable (inBounds shape idx) := by
  unfold inBounds
  infer_instance

/-- Modelled from the spec: the body of `_execute` is not in the header.  The space-layout
coordinate that belongs to the batch-layout position `batch_pos` of a call (section 4.1):
`s_d = s'_d * blockShape[d] + blockOffset_d - padBefore[d]` on every spatial axis `d`, with the
pad-before (or crop-before) amounts in `pad_start`. -/
def spacePos (NUM_BLOCK_DIMS : Nat) (a : ExecuteArgs) (batch_pos : List Nd4jLong) :
    List Nd4jLong :=
  (List.range NUM_BLOCK_DIMS).map fun d =>
    batch_pos.getD d 0 * a.block_shape.getD d 0 + a.block_offsets.getD d 0 - a.pad_start.getD d 0

/-- Modelled from the spec: the body of `_execute` is not in the header.  The test of section
4.1: the coordinate lies in `[0, spaceShape[d])` on every spatial axis `d`. -/
def inSpace (NUM_BLOCK_DIMS : Nat) (a : ExecuteArgs) (pos : List Nd4jLong) : Bool :=
  (List.range NUM_BLOCK_DIMS).all fun d =>
    decide (0 ≤ pos.getD d 0) && decide (pos.getD d 0 < a.space_shape.getD d 0)

/-- Modelled from the spec: the body of `_execute` is not in the header.  The positions
`(s', c)` of one batch-layout slice that a call visits: every spatial index of the slice with
every channel. -/
def cellPositions (a : ExecuteArgs) (channels : Nd4jLong) : List (List Nd4jLong × Nd4jLong) :=
  (grid a.batch_shape).flatMap fun batch_pos =>
    (List.range channels.toNat).map fun c : Nat => (batch_pos, (c : Nd4jLong))

/-- Stores the listed values, in order, at the listed multi-indices. -/
def applyWrites {α : Type} (writes : List (List Nd4jLong × α)) (data : List Nd4jLong → α) :
    List Nd4jLong → α :=
  writes.foldl (fun d w => Function.update d w.1 w.2) data

/-- Modelled from the spec: the body of `_execute` for `B2S = false` is not in the header.  The
store for the position `(s', c)` of the batch slice, following section 4.1 of the design
document: the element of the batch slice at `(s', c)` is the zero value if some `s_d` falls
outside `[0, spaceShape[d])` and is otherwise copied from the space slice at `(s, c)`. -/
def s2bWrite {α : Type} [Zero α] (NUM_BLOCK_DIMS : Nat) (a : ExecuteArgs) (space : NDArray α)
    (p : List Nd4jLong × Nd4jLong) : List Nd4jLong × α :=
  let pos := spacePos NUM_BLOCK_DIMS a p.1
  ([a.batch_b] ++ p.1 ++ [p.2],
    if inSpace NUM_BLOCK_DIMS a pos then space.data ([a.space_b] ++ pos ++ [p.2]) else 0)

/-- The stores of one `_execute` call for `B2S = false`: one per position of the batch slice. -/
def s2bWrites {α : Type} [Zero α] (NUM_BLOCK_DIMS : Nat) (a : ExecuteArgs) (space : NDArray α)
    (channels : Nd4jLong) : List (List Nd4jLong × α) :=
  (cellPositions a channels).map (s2bWrite NUM_BLOCK_DIMS a space)

/-- Modelled from the spec: the body of `_execute` for `B2S = true` is not in the header.  The
store, if any, for the position `(s', c)` of the batch slice, following section 4.1 of the design
document: the element of the batch slice at `(s', c)` is written to the space slice at the
coordinate `s_d - cropBefore[d]` only when that coordinate lies in the space tensor; the other
elements are dropped.  `_execute` receives `pad_start` and `space_shape` and no crop-after amount
(line 38), so the test is `0 <= s_d - cropBefore[d] < spaceShape[d]`; for a space tensor of the
batch-to-space shape that is `s_d` in
`[cropBefore[d], blockShape[d] * batchSpatialShape[d] - cropAfter[d])`.  A store is the index of
the element read, the index written and the value. -/
def b2sStore {α : Type} (NUM_BLOCK_DIMS : Nat) (a : ExecuteArgs) (batch : NDArray α)
    (p : List Nd4jLong × Nd4jLong) : Option (List Nd4jLong × List Nd4jLong × α) :=
  let pos := spacePos NUM_BLOCK_DIMS a p.1
  if inSpace NUM_BLOCK_DIMS a pos then
    some ([a.batch_b] ++ p.1 ++ [p.2], [a.space_b] ++ pos ++ [p.2],
      batch.data ([a.batch_b] ++ p.1 ++ [p.2]))
  else none

/-- The stores of one `_execute` call for `B2S = true`, in order: at most one per position of the
batch slice. -/
def b2sStores {α : Type} (NUM_BLOCK_DIMS : Nat) (a : ExecuteArgs) (batch : NDArray α)
    (channels : Nd4jLong) : List (List Nd4jLong × List Nd4jLong × α) :=
  (cellPositions a channels).filterMap (b2sStore NUM_BLOCK_DIMS a batch)

/-- The index written and the value of each store of one `_execute` call for `B2S = true`. -/
def b2sWrites {α : Type} (NUM_BLOCK_DIMS : Nat) (a : ExecuteArgs) (batch : NDArray α)
    (channels : Nd4jLong) : List (List Nd4jLong × α) :=
  (b2sStores NUM_BLOCK_DIMS a batch channels).map fun st => (st.2.1, st.2.2)

/-- Modelled from the spec: `_execute<T, NUM_BLOCK_DIMS, B2S>` is only declared (line 38).  One
call moves the elements of one batch-layout slice: into it from the space tensor when `B2S` is
false, out of it into the space tensor when `B2S` is true.  The channels visited are those of
the batch tensor.  The result is the pair of the space tensor and the batch tensor after the
call. -/
def _execute {α : Type} [Zero α] (NUM_BLOCK_DIMS : Nat) (B2S : Bool) (a : ExecuteArgs)
    (space batch : NDArray α) : NDArray α × NDArray α :=
  let channels := batch.sizeAt (NUM_BLOCK_DIMS + 1)
  if B2S then
    ({ space with data := applyWrites (b2sWrites NUM_BLOCK_DIMS a batch channels) space.data },
      batch)
  else
    (space,
      { batch with data := applyWrites (s2bWrites NUM_BLOCK_DIMS a space channels) batch.data })

/-- The effect of `_prepare` on the two tensors: the `_execute` calls it issues, run in order
from the tensors passed in.  The result is the space tensor and the batch tensor after the last
call. -/
def runPrepare {α : Type} [Zero α] (NUM_BLOCK_DIMS : Nat) (B2S : Bool) (space batch : NDArray α)
    (block_array padding_array : List Nd4jLong) : Option (NDArray α × NDArray α) :=
  (_prepare NUM_BLOCK_DIMS space batch block_array padding_array).map fun calls =>
    calls.foldl (fun st a => _execute NUM_BLOCK_DIMS B2S a st.1 st.2) (space, batch)

/-- Modelled from the spec: the outcomes of a transform, success and the two error kinds of
section 7 of the design document. -/
inductive Nd4jStatus where
  | OK
  | ShapeMismatch
  | InvalidArgument
deriving DecidableEq

/-- Product of the block sizes. -/
def blockProduct (block_shape : List Nd4jLong) : Nd4jLong :=
  block_shape.prod

/-- Modelled from the spec: the shape of the batch-layout tensor that belongs to a space-layout
tensor (section 3, space to batch): batch `inputBatch * product (blockShape)`, spatial axis `d`
`(spaceShape[d] + padBefore[d] + padAfter[d]) / blockShape[d]`, channels unchanged. -/
def spaceToBatchShape {α : Type} (NUM_BLOCK_DIMS : Nat) (input : NDArray α)
    (block_shape paddings : List Nd4jLong) : List Nd4jLong :=
  [input.sizeAt 0 * blockProduct block_shape]
    ++ ((List.range NUM_BLOCK_DIMS).map fun d =>
      (input.sizeAt (d + 1) + paddings.getD (2 * d) 0 + paddings.getD (2 * d + 1) 0)
        / block_shape.getD d 0)
    ++ [input.sizeAt (NUM_BLOCK_DIMS + 1)]

/-- Modelled from the spec: the shape of the space-layout tensor that belongs to a batch-layout
tensor (section 3, batch to space): batch `inputBatch / product (blockShape)`, spatial axis `d`
`blockShape[d] * batchSpatialShape[d] - cropBefore[d] - cropAfter[d]`, channels unchanged. -/
def batchToSpaceShape {α : Type} (NUM_BLOCK_DIMS : Nat) (input : NDArray α)
    (block_shape crops : List Nd4jLong) : List Nd4jLong :=
  [input.sizeAt 0 / blockProduct block_shape]
    ++ ((List.range NUM_BLOCK_DIMS).map fun d =>
      block_shape.getD d 0 * input.sizeAt (d + 1) - crops.getD (2 * d) 0 - crops.getD (2 * d + 1) 0)
    ++ [input.sizeAt (NUM_BLOCK_DIMS + 1)]

/-- Modelled from the spec: argument validation of both transforms (section 7): a block size
below 1 or a negative pad or crop amount is an `InvalidArgument`. -/
def argumentsValid (block_shape amounts : List Nd4jLong) : Bool :=
  block_shape.all (fun b => decide (1 ≤ b)) && amounts.all (fun p => decide (0 ≤ p))

/-- Modelled from the spec: shape validation of `spaceToBatch` (sections 3 and 4.1): the tensors
have `NUM_BLOCK_DIMS` spatial axes, there is one block size and one pair of pad amounts per
spatial axis, every padded spatial extent is exactly divisible by its block size, and the
pre-allocated output has the shape of the space-to-batch invariant. -/
def spaceToBatchShapesValid {α : Type} (NUM_BLOCK_DIMS : Nat) (input output : NDArray α)
    (block_shape paddings : List Nd4jLong) : Bool :=
  decide (input.shape.length = NUM_BLOCK_DIMS + 2)
    && decide (block_shape.length = NUM_BLOCK_DIMS)
    && decide (paddings.length = NUM_BLOCK_DIMS * 2)
    && ((List.range NUM_BLOCK_DIMS).all fun d =>
      decide ((input.sizeAt (d + 1) + paddings.getD (2 * d) 0 + paddings.getD (2 * d + 1) 0)
        % block_shape.getD d 0 = 0))
    && decide (output.shape = spaceToBatchShape NUM_BLOCK_DIMS input block_shape paddings)

/-- Modelled from the spec: shape validation of `batchToSpace` (sections 3 and 4.1): the tensors
have `NUM_BLOCK_DIMS` spatial axes, there is one block size and one pair of crop amounts per
spatial axis, the input batch is divisible by the product of the block sizes, no crop amount
exceeds the expanded spatial extent, every output spatial extent
`blockShape[d] * batchSpatialShape[d] - cropBefore[d] - cropAfter[d]` is at least 1, and the
pre-allocated output has the shape of the batch-to-space invariant. -/
def batchToSpaceShapesValid {α : Type} (NUM_BLOCK_DIMS : Nat) (input output : NDArray α)
    (block_shape crops : List Nd4jLong) : Bool :=
  decide (input.shape.length = NUM_BLOCK_DIMS + 2)
    && decide (block_shape.length = NUM_BLOCK_DIMS)
    && decide (crops.length = NUM_BLOCK_DIMS * 2)
    && decide (input.sizeAt 0 % blockProduct block_shape = 0)
    && ((List.range NUM_BLOCK_DIMS).all fun d =>
      decide (crops.getD (2 * d) 0 ≤ block_shape.getD d 0 * input.sizeAt (d + 1))
        && decide (crops.getD (2 * d + 1) 0 ≤ block_shape.getD d 0 * input.sizeAt (d + 1))
        && decide (1 ≤ block_shape.getD d 0 * input.sizeAt (d + 1) - crops.getD (2 * d) 0
          - crops.getD (2 * d + 1) 0))
    && decide (output.shape = batchToSpaceShape NUM_BLOCK_DIMS input block_shape crops)

/-- Modelled from the spec: `_spaceToBatch` is only declared (line 82).  All validation happens
before any write; on a validation failure the status is returned with the output as it was.
Otherwise `_prepare<NUM_BLOCK_DIMS, false>` runs with the input as the space tensor and the output
as the batch tensor.  The result is the status and the output tensor after the call. -/
def _spaceToBatch {α : Type} [Zero α] (NUM_BLOCK_DIMS : Nat) (input output : NDArray α)
    (block_shape paddings : List Nd4jLong) : Option (Nd4jStatus × NDArray α) :=
  if !argumentsValid block_shape paddings then some (Nd4jStatus.InvalidArgument, output)
  else if !spaceToBatchShapesValid NUM_BLOCK_DIMS input output block_shape paddings then
    some (Nd4jStatus.ShapeMismatch, output)
  else
    (runPrepare NUM_BLOCK_DIMS false input output block_shape paddings).map fun st =>
      (Nd4jStatus.OK, st.2)

/-- Modelled from the spec: `_batchToSpace` is only declared (line 84).  All validation happens
before any write; on a validation failure the status is returned with the output as it was.
Otherwise `_prepare<NUM_BLOCK_DIMS, true>` runs with the output as the space tensor and the input
as the batch tensor.  The result is the status and the output tensor after the call. -/
def _batchToSpace {α : Type} [Zero α] (NUM_BLOCK_DIMS : Nat) (input output : NDArray α)
    (block_shape crops : List Nd4jLong) : Option (Nd4jStatus × NDArray α) :=
  if !argumentsValid block_shape crops then some (Nd4jStatus.InvalidArgument, output)
  else if !batchToSpaceShapesValid NUM_BLOCK_DIMS input output block_shape crops then
    some (Nd4jStatus.ShapeMismatch, output)
  else
    (runPrepare NUM_BLOCK_DIMS true output input block_shape crops).map fun st =>
      (Nd4jStatus.OK, st.1)

/-- Modelled from the spec: `spaceToBatch` is only declared (line 32): the transform of a tensor
with two spatial axes, the same block size on both, and the pad amounts `padBottom, padTop` of the
first and `padLeft, padRight` of the second spatial axis.  The amounts are unsigned. -/
def spaceToBatch {α : Type} [Zero α] (input output : NDArray α)
    (padBottom padTop padLeft padRight blockSize : Nat) : Option (Nd4jStatus × NDArray α) :=
  _spaceToBatch 2 input output [(blockSize : Nd4jLong), (blockSize : Nd4jLong)]
    [(padBottom : Nd4jLong), (padTop : Nd4jLong), (padLeft : Nd4jLong), (padRight : Nd4jLong)]

/-- Closed form of `blockOffsetsLoop` for block sizes of at least 1 and a non-negative block
index: the offsets of the axes `0 .. n - 1`.  Used in the proofs only. -/
def mixedRadixDigits (block_shape : List Nd4jLong) : Nat → Nd4jLong → List Nd4jLong
  | 0, _ => []
  | n + 1, q =>
    if n = 0 then [q]
    else mixedRadixDigits block_shape n (q / block_shape.getD n 0) ++ [q % block_shape.getD n 0]

/-- The digits `off[0], ..., off[N-1]` read in row-major order with the block sizes as radices:
`(...((off[0] * block[1] + off[1]) * block[2] + off[2])...) * block[N-1] + off[N-1]`. -/
def rowMajorValue (block_shape block_offsets : List Nd4jLong) : Nd4jLong :=
  (List.zip block_shape block_offsets).foldl (fun acc p => acc * p.1 + p.2) 0

/-! ## Concrete tensors and closed forms used by the theorems -/

/-- The input of the concrete scenario of section 8: shape `[1, 4, 4, 1]`, filled `0 .. 15` in
row-major order. -/
def scenarioInput : NDArray Int :=
  { shape := [1, 4, 4, 1]
    strides := [16, 4, 1, 1]
    data := fun idx => idx.getD 1 0 * 4 + idx.getD 2 0
    strides_length := rfl
    shape_nonneg := by decide }

/-- A pre-allocated output of shape `[4, 2, 2, 1]` for the concrete scenario. -/
def scenarioOutput : NDArray Int :=
  { shape := [4, 2, 2, 1]
    strides := [4, 2, 1, 1]
    data := fun _ => 0
    strides_length := rfl
    shape_nonneg := by decide }

/-- A space-layout tensor with two batches, one spatial axis of extent 2 and one channel. -/
def twoBatchSpace : NDArray Int :=
  { shape := [2, 2, 1]
    strides := [2, 1, 1]
    data := fun idx => idx.getD 0 0 * 2 + idx.getD 1 0
    strides_length := rfl
    shape_nonneg := by decide }

/-- The batch-layout tensor that belongs to `twoBatchSpace` for block size 2. -/
def twoBatchBatch : NDArray Int :=
  { shape := [4, 1, 1]
    strides := [1, 1, 1]
    data := fun _ => 0
    strides_length := rfl
    shape_nonneg := by decide }

/-- Closed form of `prepareBatch` for block sizes of at least 1, a positive space batch extent and
a non-negative loop counter.  Used in the proofs only. -/
def callArgs {α : Type} (NUM_BLOCK_DIMS : Nat) (space batch : NDArray α)
    (block_array padding_array : List Nd4jLong) (batch_b : Nd4jLong) : ExecuteArgs :=
  let arrays := prepareArrays NUM_BLOCK_DIMS space batch block_array padding_array
  { space_b := batch_b % space.sizeAt 0
    space_offset := batch_b % space.sizeAt 0 * space.stridesOf.getD 0 0
    space_shape := arrays.space_shape
    space_strides := space.stridesOf.drop 1
    block_shape := arrays.block_shape
    pad_start := arrays.pad_start
    block_offsets :=
      mixedRadixDigits arrays.block_shape NUM_BLOCK_DIMS (batch_b / space.sizeAt 0)
    batch_b := batch_b
    batch_offset := batch_b * batch.stridesOf.getD 0 0
    batch_shape := arrays.batch_shape
    batch_strides := batch.stridesOf.drop 1 }

/-- A batch-layout tensor of shape `[1, 3, 3, 1]` with the elements `10 * row + column`. -/
def cropInput : NDArray Int :=
  { shape := [1, 3, 3, 1]
    strides := [9, 3, 1, 1]
    data := fun idx => 10 * idx.getD 1 0 + idx.getD 2 0
    strides_length := rfl
    shape_nonneg := by decide }

/-- A pre-allocated output of shape `[1, 1, 1, 1]`: `cropInput` with one row and one column
cropped on every edge, block size 1. -/
def cropOutput : NDArray Int :=
  { shape := [1, 1, 1, 1]
    strides := [1, 1, 1, 1]
    data := fun _ => 99
    strides_length := rfl
    shape_nonneg := by decide }

/-- A space-layout tensor without batches. -/
def emptySpace : NDArray Int :=
  { shape := [0, 2, 1]
    strides := [2, 1, 1]
    data := fun _ => 5
    strides_length := rfl
    shape_nonneg := by decide }

/-- A batch-layout tensor without batches. -/
def emptyBatch : NDArray Int :=
  { shape := [0, 1, 1]
    strides := [1, 1, 1]
    data := fun _ => 7
    strides_length := rfl
    shape_nonneg := by decide }

theorem cDiv_of_pos {a b : Nd4jLong} (ha : 0 ≤ a) (hb : 0 < b) : cDiv a b = some (a / b) := by
  have hne : b ≠ 0 := ne_of_gt hb
  simp [cDiv, hne, Int.tdiv_eq_ediv ha (le_of_lt hb)]

theorem cMod_of_pos {a b : Nd4jLong} (ha : 0 ≤ a) (hb : 0 < b) : cMod a b = some (a % b) := by
  have hne : b ≠ 0 := ne_of_gt hb
  simp [cMod, hne, Int.tmod_eq_emod ha (le_of_lt hb)]

theorem narrowToInt_of_lt {x : Int} (h0 : 0 ≤ x) (h1 : x < 2147483648) : narrowToInt x = x := by
  unfold narrowToInt
  omega

theorem getD_pos_of_forall {block_shape : List Nd4jLong} (hblk : ∀ b ∈ block_shape, 1 ≤ b)
    {d : Nat} (hd : d < block_shape.length) : 0 < block_shape.getD d 0 := by
  rw [List.getD_eq_getElem _ _ hd]
  exact lt_of_lt_of_le Int.zero_lt_one (hblk _ (List.getElem_mem hd))

/-! ## The inner loop of `_prepare` -/

theorem blockOffsetsLoop_eq (block_shape : List Nd4jLong) (hblk : ∀ b ∈ block_shape, 1 ≤ b) :
    ∀ (n : Nat) (q : Nd4jLong) (acc : List Nd4jLong), n ≤ block_shape.length → 0 ≤ q →
      blockOffsetsLoop block_shape n q acc = some (mixedRadixDigits block_shape n q ++ acc) := by
  intro n
  induction n with
  | zero => intro q acc _ _; simp [blockOffsetsLoop, mixedRadixDigits]
  | succ n ih =>
    intro q acc hn hq
    have hlt : n < block_shape.length := hn
    have hpos : 0 < block_shape.getD n 0 := getD_pos_of_forall hblk hlt
    have hget : block_shape[n]? = some (block_shape.getD n 0) := by
      rw [List.getD_eq_getElem _ _ hlt, List.getElem?_eq_getElem hlt]
    have hq2 : 0 ≤ q / block_shape.getD n 0 := Int.ediv_nonneg hq (le_of_lt hpos)
    rw [blockOffsetsLoop, hget]
    by_cases h0 : n = 0
    · subst h0
      simp only [Nat.lt_irrefl, if_false, cDiv_of_pos hq hpos, Option.some_bind]
      simp [blockOffsetsLoop, mixedRadixDigits]
    · have hn0 : 0 < n := Nat.pos_of_ne_zero h0
      simp only [hn0, if_true, cMod_of_pos hq hpos, cDiv_of_pos hq hpos, Option.some_bind]
      rw [ih _ _ (Nat.le_of_lt hlt) hq2]
      simp [mixedRadixDigits, h0]

theorem length_mixedRadixDigits (block_shape : List Nd4jLong) :
    ∀ (n : Nat) (q : Nd4jLong), (mixedRadixDigits block_shape n q).length = n := by
  intro n
  induction n with
  | zero => intro q; simp [mixedRadixDigits]
  | succ n ih =>
    intro q
    by_cases h0 : n = 0
    · subst h0; simp [mixedRadixDigits]
    · simp [mixedRadixDigits, h0, ih]

/-! ## Row-major value of the offsets -/

theorem rowMajorValue_snoc (bs pre : List Nd4jLong) (b r : Nd4jLong)
    (hlen : bs.length = pre.length) :
    rowMajorValue (bs ++ [b]) (pre ++ [r]) = rowMajorValue bs pre * b + r := by
  unfold rowMajorValue
  rw [List.zip_append hlen, List.foldl_append]
  simp

theorem take_succ_eq_snoc (l : List Nd4jLong) {n : Nat} (hn : n < l.length) :
    l.take (n + 1) = l.take n ++ [l.getD n 0] := by
  rw [List.take_succ, List.getD_eq_getElem _ _ hn, List.getElem?_eq_getElem hn]
  rfl

theorem rowMajorValue_mixedRadixDigits (block_shape : List Nd4jLong) :
    ∀ (n : Nat) (q : Nd4jLong), n + 1 ≤ block_shape.length →
      rowMajorValue (block_shape.take (n + 1)) (mixedRadixDigits block_shape (n + 1) q) = q := by
  intro n
  induction n with
  | zero =>
    intro q hn
    rw [take_succ_eq_snoc _ hn]
    simp [mixedRadixDigits, rowMajorValue]
  | succ n ih =>
    intro q hn
    have hlt : n + 1 < block_shape.length := hn
    rw [take_succ_eq_snoc _ hlt]
    have hd : mixedRadixDigits block_shape (n + 1 + 1) q
        = mixedRadixDigits block_shape (n + 1) (q / block_shape.getD (n + 1) 0)
          ++ [q % block_shape.getD (n + 1) 0] := by
      simp [mixedRadixDigits]
    rw [hd, rowMajorValue_snoc _ _ _ _ (by
      rw [length_mixedRadixDigits, List.length_take]; omega), ih _ (Nat.le_of_lt hlt)]
    have := Int.emod_add_ediv q (block_shape.getD (n + 1) 0)
    linarith [mul_comm (block_shape.getD (n + 1) 0) (q / block_shape.getD (n + 1) 0)]

theorem mixedRadixDigits_getD_bounds (block_shape : List Nd4jLong)
    (hblk : ∀ b ∈ block_shape, 1 ≤ b) :
    ∀ (n : Nat) (q : Nd4jLong), n ≤ block_shape.length → ∀ d, 1 ≤ d → d < n →
      0 ≤ (mixedRadixDigits block_shape n q).getD d 0
        ∧ (mixedRadixDigits block_shape n q).getD d 0 < block_shape.getD d 0 := by
  intro n
  induction n with
  | zero => intro q _ d _ hd; omega
  | succ n ih =>
    intro q hn d hd1 hdn
    have hn0 : n ≠ 0 := by omega
    have hlt : n < block_shape.length := hn
    have hpos : 0 < block_shape.getD n 0 := getD_pos_of_forall hblk hlt
    have hd : mixedRadixDigits block_shape (n + 1) q
        = mixedRadixDigits block_shape n (q / block_shape.getD n 0)
          ++ [q % block_shape.getD n 0] := by
      simp [mixedRadixDigits, hn0]
    rw [hd]
    by_cases hdn2 : d < n
    · rw [List.getD_append _ _ _ _ (by rw [length_mixedRadixDigits]; exact hdn2)]
      exact ih _ (Nat.le_of_lt hlt) d hd1 hdn2
    · have hdeq : d = n := by omega
      subst hdeq
      rw [List.getD_append_right _ _ _ _ (by rw [length_mixedRadixDigits])]
      simp only [length_mixedRadixDigits, Nat.sub_self, List.getD_cons_zero]
      exact ⟨Int.emod_nonneg _ (ne_of_gt hpos), Int.emod_lt_of_pos _ hpos⟩

theorem blockProduct_take_succ (block_shape : List Nd4jLong) {n : Nat}
    (hn : n < block_shape.length) :
    blockProduct (block_shape.take (n + 1))
      = blockProduct (block_shape.take n) * block_shape.getD n 0 := by
  unfold blockProduct
  rw [take_succ_eq_snoc _ hn, List.prod_append]
  simp

theorem blockProduct_pos (block_shape : List Nd4jLong) (hblk : ∀ b ∈ block_shape, 1 ≤ b) :
    0 < blockProduct block_shape := by
  unfold blockProduct
  induction block_shape with
  | nil => simp
  | cons b bs ih =>
    rw [List.prod_cons]
    have hb : 1 ≤ b := hblk b (List.mem_cons_self _ _)
    have := ih (fun x hx => hblk x (List.mem_cons_of_mem _ hx))
    positivity

theorem mixedRadixDigits_head_bounds (block_shape : List Nd4jLong)
    (hblk : ∀ b ∈ block_shape, 1 ≤ b) :
    ∀ (n : Nat) (q : Nd4jLong), n + 1 ≤ block_shape.length → 0 ≤ q →
      q < blockProduct (block_shape.take (n + 1)) →
      0 ≤ (mixedRadixDigits block_shape (n + 1) q).getD 0 0
        ∧ (mixedRadixDigits block_shape (n + 1) q).getD 0 0 < block_shape.getD 0 0 := by
  intro n
  induction n with
  | zero =>
    intro q hn hq hlt
    rw [blockProduct_take_succ _ hn] at hlt
    simp [blockProduct] at hlt
    simp [mixedRadixDigits]
    exact ⟨hq, by simpa using hlt⟩
  | succ n ih =>
    intro q hn hq hlt
    have hlt2 : n + 1 < block_shape.length := hn
    have hpos : 0 < block_shape.getD (n + 1) 0 := getD_pos_of_forall hblk hlt2
    have hd : mixedRadixDigits block_shape (n + 1 + 1) q
        = mixedRadixDigits block_shape (n + 1) (q / block_shape.getD (n + 1) 0)
          ++ [q % block_shape.getD (n + 1) 0] := by
      simp [mixedRadixDigits]
    rw [hd, List.getD_append _ _ _ _ (by rw [length_mixedRadixDigits]; omega)]
    rw [blockProduct_take_succ _ hlt2] at hlt
    exact ih _ (Nat.le_of_lt hlt2) (Int.ediv_nonneg hq (le_of_lt hpos))
      (Int.ediv_lt_of_lt_mul hpos hlt)

theorem rowMajorValue_take_succ (block_shape offs : List Nd4jLong) {n : Nat}
    (hn : n < block_shape.length) (hn2 : n < offs.length) :
    rowMajorValue (block_shape.take (n + 1)) (offs.take (n + 1))
      = rowMajorValue (block_shape.take n) (offs.take n) * block_shape.getD n 0
        + offs.getD n 0 := by
  rw [take_succ_eq_snoc _ hn, take_succ_eq_snoc _ hn2, rowMajorValue_snoc]
  rw [List.length_take, List.length_take]; omega

theorem rowMajorValue_bounds (block_shape offs : List Nd4jLong)
    (hoffs : ∀ d, d < block_shape.length →
      0 ≤ offs.getD d 0 ∧ offs.getD d 0 < block_shape.getD d 0) :
    ∀ n : Nat, n ≤ block_shape.length → n ≤ offs.length →
      0 ≤ rowMajorValue (block_shape.take n) (offs.take n)
        ∧ rowMajorValue (block_shape.take n) (offs.take n)
          < blockProduct (block_shape.take n) := by
  intro n
  induction n with
  | zero => intro _ _; simp [rowMajorValue, blockProduct]
  | succ n ih =>
    intro hn hn2
    obtain ⟨h1, h2⟩ := ih (Nat.le_of_lt hn) (Nat.le_of_lt hn2)
    obtain ⟨h3, h4⟩ := hoffs n hn
    rw [rowMajorValue_take_succ _ _ hn hn2, blockProduct_take_succ _ hn]
    constructor
    · have : 0 ≤ block_shape.getD n 0 := le_trans h3 (le_of_lt h4)
      positivity
    · have hb : 0 ≤ block_shape.getD n 0 := le_trans h3 (le_of_lt h4)
      have hmul := mul_le_mul_of_nonneg_right (Int.add_one_le_of_lt h2) hb
      linarith [add_mul (rowMajorValue (block_shape.take n) (offs.take n)) 1
        (block_shape.getD n 0)]

theorem mixedRadixDigits_rowMajorValue (block_shape offs : List Nd4jLong)
    (hoffs : ∀ d, 1 ≤ d → d < block_shape.length →
      0 ≤ offs.getD d 0 ∧ offs.getD d 0 < block_shape.getD d 0) :
    ∀ n : Nat, n ≤ block_shape.length → n ≤ offs.length →
      mixedRadixDigits block_shape n (rowMajorValue (block_shape.take n) (offs.take n))
        = offs.take n := by
  intro n
  induction n with
  | zero => intro _ _; simp [mixedRadixDigits]
  | succ n ih =>
    intro hn hn2
    rw [rowMajorValue_take_succ _ _ hn hn2]
    by_cases h0 : n = 0
    · subst h0
      rw [take_succ_eq_snoc _ hn2]
      simp [mixedRadixDigits, rowMajorValue]
    · obtain ⟨h3, h4⟩ := hoffs n (by omega) hn
      have hpos : 0 < block_shape.getD n 0 := lt_of_le_of_lt h3 h4
      have hdm := (Int.ediv_emod_unique (a := rowMajorValue (block_shape.take n) (offs.take n)
          * block_shape.getD n 0 + offs.getD n 0) (r := offs.getD n 0)
          (q := rowMajorValue (block_shape.take n) (offs.take n)) hpos).mpr
        ⟨by ring, h3, h4⟩
      have hd : ∀ q, mixedRadixDigits block_shape (n + 1) q
          = mixedRadixDigits block_shape n (q / block_shape.getD n 0)
            ++ [q % block_shape.getD n 0] := by
        intro q; simp [mixedRadixDigits, h0]
      rw [hd, hdm.1, hdm.2, ih (Nat.le_of_lt hn) (Nat.le_of_lt hn2), take_succ_eq_snoc _ hn2]

/-! ## The batch loop of `_prepare` -/

theorem blockOffsets_eq (N : Nat) (block_shape : List Nd4jLong) (batch_b space_size : Nd4jLong)
    (hlen : block_shape.length = N) (hblk : ∀ b ∈ block_shape, 1 ≤ b) (hb : 0 ≤ batch_b)
    (hs : 0 < space_size) :
    blockOffsets N block_shape batch_b space_size
      = some (mixedRadixDigits block_shape N (batch_b / space_size)) := by
  unfold blockOffsets blockIndex
  rw [cDiv_of_pos hb hs, Option.some_bind,
    blockOffsetsLoop_eq block_shape hblk N _ [] (le_of_eq hlen.symm)
      (Int.ediv_nonneg hb (le_of_lt hs))]
  simp

theorem mixedRadixDigits_inBounds (N : Nat) (block_shape : List Nd4jLong) (q : Nd4jLong)
    (hlen : block_shape.length = N) (hblk : ∀ b ∈ block_shape, 1 ≤ b) (hq : 0 ≤ q)
    (hlt : q < blockProduct block_shape) :
    inBounds block_shape (mixedRadixDigits block_shape N q) := by
  refine ⟨by rw [length_mixedRadixDigits, hlen], ?_⟩
  intro d hd
  cases N with
  | zero => omega
  | succ n =>
    by_cases hd0 : d = 0
    · subst hd0
      have htake : block_shape.take (n + 1) = block_shape := by
        rw [← hlen]; exact List.take_length _
      have hlt2 : q < blockProduct (block_shape.take (n + 1)) := by rw [htake]; exact hlt
      exact mixedRadixDigits_head_bounds block_shape hblk n q (le_of_eq hlen.symm) hq hlt2
    · exact mixedRadixDigits_getD_bounds block_shape hblk (n + 1) q (le_of_eq hlen.symm) d
        (by omega) (by omega)

theorem mixedRadixDigits_injective (N : Nat) (block_shape : List Nd4jLong) (q1 q2 : Nd4jLong)
    (hlen : block_shape.length = N)
    (h1 : 0 ≤ q1 ∧ q1 < blockProduct block_shape) (h2 : 0 ≤ q2 ∧ q2 < blockProduct block_shape)
    (heq : mixedRadixDigits block_shape N q1 = mixedRadixDigits block_shape N q2) : q1 = q2 := by
  cases N with
  | zero =>
    have hnil : block_shape = [] := List.length_eq_zero.mp hlen
    subst hnil
    have hp : blockProduct ([] : List Nd4jLong) = 1 := rfl
    rw [hp] at h1 h2
    have e1 : q1 = 0 := le_antisymm (Int.lt_add_one_iff.mp (by simpa using h1.2)) h1.1
    have e2 : q2 = 0 := le_antisymm (Int.lt_add_one_iff.mp (by simpa using h2.2)) h2.1
    rw [e1, e2]
  | succ n =>
    have htake : block_shape.take (n + 1) = block_shape := by
      rw [← hlen]; exact List.take_length _
    have e1 := rowMajorValue_mixedRadixDigits block_shape n q1 (le_of_eq hlen.symm)
    have e2 := rowMajorValue_mixedRadixDigits block_shape n q2 (le_of_eq hlen.symm)
    rw [heq] at e1
    exact e1.symm.trans e2

theorem space_size_pos {space_size batch_size batch_b : Nd4jLong} {block_shape : List Nd4jLong}
    (hs : 0 ≤ space_size) (hsize : batch_size = space_size * blockProduct block_shape)
    (h0 : 0 ≤ batch_b) (h1 : batch_b < batch_size) :
    0 < space_size ∧ 0 < blockProduct block_shape := by
  have hpos : 0 < space_size * blockProduct block_shape := by
    rw [← hsize]; exact lt_of_le_of_lt h0 h1
  have hs0 : 0 < space_size := by
    rcases eq_or_lt_of_le hs with h | h
    · rw [← h] at hpos; simp at hpos
    · exact h
  exact ⟨hs0, pos_of_mul_pos_right hpos hs⟩

/-- C3, as stated, fails.  With two space batches and one spatial axis of block size 2 (batch
extent `4 = 2 * 2`), `_prepare` derives for the batch-layout index 1 the space batch 1 and the
block index 0, and `1 * 2 + 0` is not 1. -/
theorem decomposition_as_stated_fails :
    (_prepare 1 twoBatchSpace twoBatchBatch [2] [0, 0]).map
        (fun calls => calls.map fun a => (a.batch_b, a.space_b, a.block_offsets))
      = some [(0, 0, [0]), (1, 1, [0]), (2, 0, [1]), (3, 1, [1])]
    ∧ twoBatchBatch.sizeAt 0 = twoBatchSpace.sizeAt 0 * blockProduct [2]
    ∧ spaceB 1 (twoBatchSpace.sizeAt 0) = some 1
    ∧ blockIndex 1 (twoBatchSpace.sizeAt 0) = some 0
    ∧ ¬ ((1 : Nd4jLong) = 1 * blockProduct [2] + 0) := by
  decide

/-- C3, amended: for every batch-layout index `b'` in `[0, batchSize)`, with
`batchSize = spaceBatch * prod (blockShape)` and a non-negative space batch extent, the space batch
index `b` and the block index `blockOffset` that `_prepare` derives are defined and satisfy
`b' = blockOffset * spaceBatch + b` with `0 <= b < spaceBatch` and
`0 <= blockOffset < prod (blockShape)`: the space batch index varies fastest. -/
theorem batch_index_decomposition (space_size batch_size batch_b : Nd4jLong)
    (block_shape : List Nd4jLong) (hs : 0 ≤ space_size)
    (hsize : batch_size = space_size * blockProduct block_shape)
    (h0 : 0 ≤ batch_b) (h1 : batch_b < batch_size) :
    ∃ space_b block_index, spaceB batch_b space_size = some space_b
      ∧ blockIndex batch_b space_size = some block_index
      ∧ batch_b = block_index * space_size + space_b
      ∧ 0 ≤ space_b ∧ space_b < space_size
      ∧ 0 ≤ block_index ∧ block_index < blockProduct block_shape := by
  obtain ⟨hs0, _⟩ := space_size_pos hs hsize h0 h1
  refine ⟨batch_b % space_size, batch_b / space_size, cMod_of_pos h0 hs0, cDiv_of_pos h0 hs0,
    ?_, Int.emod_nonneg _ (ne_of_gt hs0), Int.emod_lt_of_pos _ hs0,
    Int.ediv_nonneg h0 (le_of_lt hs0), ?_⟩
  · have := Int.emod_add_ediv batch_b space_size
    linarith [mul_comm space_size (batch_b / space_size)]
  · apply Int.ediv_lt_of_lt_mul hs0
    rw [mul_comm, ← hsize]; exact h1

theorem batch_index_decomposition_witness :
    ∃ space_b block_index, spaceB 3 2 = some space_b
      ∧ blockIndex 3 2 = some block_index
      ∧ (3 : Nd4jLong) = block_index * 2 + space_b
      ∧ 0 ≤ space_b ∧ space_b < 2
      ∧ 0 ≤ block_index ∧ block_index < blockProduct [2] :=
  batch_index_decomposition 2 4 3 [2] (by decide) (by decide) (by decide) (by decide)

theorem quotient_bounds {space_size batch_size b : Nd4jLong} {block_shape : List Nd4jLong}
    (hs0 : 0 < space_size) (hsize : batch_size = space_size * blockProduct block_shape)
    (h0 : 0 ≤ b) (h1 : b < batch_size) :
    0 ≤ b / space_size ∧ b / space_size < blockProduct block_shape := by
  refine ⟨Int.ediv_nonneg h0 (le_of_lt hs0), Int.ediv_lt_of_lt_mul hs0 ?_⟩
  rw [mul_comm, ← hsize]; exact h1

theorem index_map_injective (N : Nat) (block_shape : List Nd4jLong)
    (space_size batch_size b1 b2 : Nd4jLong) (hlen : block_shape.length = N)
    (hs0 : 0 < space_size) (hsize : batch_size = space_size * blockProduct block_shape)
    (h10 : 0 ≤ b1) (h11 : b1 < batch_size) (h20 : 0 ≤ b2) (h21 : b2 < batch_size)
    (hm : b1 % space_size = b2 % space_size)
    (hoff : mixedRadixDigits block_shape N (b1 / space_size)
      = mixedRadixDigits block_shape N (b2 / space_size)) : b1 = b2 := by
  have hq := mixedRadixDigits_injective N block_shape _ _ hlen
    (quotient_bounds hs0 hsize h10 h11) (quotient_bounds hs0 hsize h20 h21) hoff
  have e1 := Int.emod_add_ediv b1 space_size
  have e2 := Int.emod_add_ediv b2 space_size
  rw [hq, hm] at e1
  exact e1.symm.trans e2

theorem index_map_surjective (N : Nat) (block_shape : List Nd4jLong)
    (space_size batch_size space_b : Nd4jLong) (offs : List Nd4jLong)
    (hlen : block_shape.length = N) (hs0 : 0 < space_size)
    (hsize : batch_size = space_size * blockProduct block_shape)
    (hb0 : 0 ≤ space_b) (hb1 : space_b < space_size) (hin : inBounds block_shape offs) :
    ∃ b, 0 ≤ b ∧ b < batch_size ∧ b % space_size = space_b
      ∧ mixedRadixDigits block_shape N (b / space_size) = offs := by
  obtain ⟨hl, hoffs⟩ := hin
  have htake : block_shape.take N = block_shape := by rw [← hlen]; exact List.take_length _
  have htake2 : offs.take N = offs := by rw [← hlen, ← hl]; exact List.take_length _
  have hv := rowMajorValue_bounds block_shape offs hoffs N (le_of_eq hlen.symm)
    (by rw [hl, hlen])
  have hd := mixedRadixDigits_rowMajorValue block_shape offs (fun d _ hd => hoffs d hd) N
    (le_of_eq hlen.symm) (by rw [hl, hlen])
  rw [htake, htake2] at hv hd
  obtain ⟨hv0, hv1⟩ := hv
  have hdm := (Int.ediv_emod_unique (a := rowMajorValue block_shape offs * space_size + space_b)
    (r := space_b) (q := rowMajorValue block_shape offs) hs0).mpr ⟨by ring, hb0, hb1⟩
  have hnonneg : 0 ≤ rowMajorValue block_shape offs * space_size + space_b := by positivity
  refine ⟨rowMajorValue block_shape offs * space_size + space_b, hnonneg, ?_, hdm.2, ?_⟩
  · rw [hsize]
    have hmul := mul_le_mul_of_nonneg_right (Int.add_one_le_of_lt hv1) (le_of_lt hs0)
    linarith [add_mul (rowMajorValue block_shape offs) 1 space_size,
      mul_comm space_size (blockProduct block_shape)]
  · rw [hdm.1, hd]

/-- C4: for `NUM_BLOCK_DIMS >= 1`, block sizes of at least 1 and a block index `q >= 0`, the inner
loop of `_prepare` returns offsets, one per axis, that are the row-major digits of `q`:
`q = (...((off[0] * block[1] + off[1]) * block[2] + off[2])...) * block[N-1] + off[N-1]`.  In the
scenario of section 8 (input `[1, 4, 4, 1]` filled `0 .. 15`, block 2, pad 0) the calls for the
output batches 0 and 1 carry the offsets `(0, 0)` and `(0, 1)`, and the output batches are
`[0, 2, 8, 10]` and `[1, 3, 9, 11]`. -/
theorem block_offsets_row_major (N : Nat) (block_shape : List Nd4jLong) (q : Nd4jLong)
    (hN : 1 ≤ N) (hlen : block_shape.length = N) (hblk : ∀ b ∈ block_shape, 1 ≤ b)
    (hq : 0 ≤ q) :
    (∃ offs, blockOffsetsLoop block_shape N q [] = some offs ∧ offs.length = N
      ∧ rowMajorValue block_shape offs = q)
    ∧ (_prepare 2 scenarioInput scenarioOutput [2, 2] [0, 0, 0, 0]).map
        (fun calls => calls.map fun a => (a.batch_b, a.space_b, a.block_offsets))
      = some [(0, 0, [0, 0]), (1, 0, [0, 1]), (2, 0, [1, 0]), (3, 0, [1, 1])]
    ∧ ∃ out, spaceToBatch scenarioInput scenarioOutput 0 0 0 0 2 = some (Nd4jStatus.OK, out)
      ∧ out.shape = [4, 2, 2, 1]
      ∧ [out.data [0, 0, 0, 0], out.data [0, 0, 1, 0], out.data [0, 1, 0, 0],
          out.data [0, 1, 1, 0]] = [0, 2, 8, 10]
      ∧ [out.data [1, 0, 0, 0], out.data [1, 0, 1, 0], out.data [1, 1, 0, 0],
          out.data [1, 1, 1, 0]] = [1, 3, 9, 11] := by
  refine ⟨⟨mixedRadixDigits block_shape N q, ?_, length_mixedRadixDigits _ _ _, ?_⟩, by decide,
    ⟨_, rfl, rfl, by decide, by decide⟩⟩
  · rw [blockOffsetsLoop_eq block_shape hblk N q [] (le_of_eq hlen.symm) hq]
    simp
  · obtain ⟨n, rfl⟩ : ∃ n, N = n + 1 := ⟨N - 1, by omega⟩
    have htake : block_shape.take (n + 1) = block_shape := by
      rw [← hlen]; exact List.take_length _
    have := rowMajorValue_mixedRadixDigits block_shape n q (le_of_eq hlen.symm)
    rw [htake] at this
    exact this

theorem block_offsets_row_major_witness :
    (∃ offs, blockOffsetsLoop [2, 3, 4] 3 23 [] = some offs ∧ offs.length = 3
      ∧ rowMajorValue [2, 3, 4] offs = 23)
    ∧ (_prepare 2 scenarioInput scenarioOutput [2, 2] [0, 0, 0, 0]).map
        (fun calls => calls.map fun a => (a.batch_b, a.space_b, a.block_offsets))
      = some [(0, 0, [0, 0]), (1, 0, [0, 1]), (2, 0, [1, 0]), (3, 0, [1, 1])]
    ∧ ∃ out, spaceToBatch scenarioInput scenarioOutput 0 0 0 0 2 = some (Nd4jStatus.OK, out)
      ∧ out.shape = [4, 2, 2, 1]
      ∧ [out.data [0, 0, 0, 0], out.data [0, 0, 1, 0], out.data [0, 1, 0, 0],
          out.data [0, 1, 1, 0]] = [0, 2, 8, 10]
      ∧ [out.data [1, 0, 0, 0], out.data [1, 0, 1, 0], out.data [1, 1, 0, 0],
          out.data [1, 1, 1, 0]] = [1, 3, 9, 11] :=
  block_offsets_row_major 3 [2, 3, 4] 23 (by decide) rfl (by decide) (by decide)

/-- C10: for `space_size >= 1`, block sizes of at least 1 and
`batch_size = space_size * product (block_shape)`, the map
`batch_b -> (space_b, block_offsets)` of `_prepare` is a bijection from `[0, batch_size)` onto
`[0, space_size) x prod_d [0, block_shape[d])`: it is defined on every index and lands in the
target, the axis-0 offset included; it is injective; and every point of the target is reached. -/
theorem prepare_index_map_bijective (N : Nat) (block_shape : List Nd4jLong)
    (space_size batch_size : Nd4jLong) (hlen : block_shape.length = N)
    (hblk : ∀ b ∈ block_shape, 1 ≤ b) (hs : 1 ≤ space_size)
    (hsize : batch_size = space_size * blockProduct block_shape) :
    (∀ batch_b, 0 ≤ batch_b → batch_b < batch_size →
      ∃ space_b offs, spaceB batch_b space_size = some space_b
        ∧ blockOffsets N block_shape batch_b space_size = some offs
        ∧ 0 ≤ space_b ∧ space_b < space_size ∧ inBounds block_shape offs)
    ∧ (∀ b1 b2, 0 ≤ b1 → b1 < batch_size → 0 ≤ b2 → b2 < batch_size →
      spaceB b1 space_size = spaceB b2 space_size →
      blockOffsets N block_shape b1 space_size = blockOffsets N block_shape b2 space_size →
      b1 = b2)
    ∧ (∀ space_b offs, 0 ≤ space_b → space_b < space_size → inBounds block_shape offs →
      ∃ batch_b, 0 ≤ batch_b ∧ batch_b < batch_size
        ∧ spaceB batch_b space_size = some space_b
        ∧ blockOffsets N block_shape batch_b space_size = some offs) := by
  have hs0 : 0 < space_size := lt_of_lt_of_le Int.zero_lt_one hs
  refine ⟨?_, ?_, ?_⟩
  · intro b h0 h1
    obtain ⟨hq0, hq1⟩ := quotient_bounds hs0 hsize h0 h1
    exact ⟨b % space_size, _, cMod_of_pos h0 hs0,
      blockOffsets_eq N block_shape b space_size hlen hblk h0 hs0,
      Int.emod_nonneg _ (ne_of_gt hs0), Int.emod_lt_of_pos _ hs0,
      mixedRadixDigits_inBounds N block_shape _ hlen hblk hq0 hq1⟩
  · intro b1 b2 h10 h11 h20 h21 hsb hoff
    rw [spaceB, spaceB, cMod_of_pos h10 hs0, cMod_of_pos h20 hs0] at hsb
    rw [blockOffsets_eq N block_shape b1 space_size hlen hblk h10 hs0,
      blockOffsets_eq N block_shape b2 space_size hlen hblk h20 hs0] at hoff
    exact index_map_injective N block_shape space_size batch_size b1 b2 hlen hs0 hsize h10 h11
      h20 h21 (Option.some.inj hsb) (Option.some.inj hoff)
  · intro space_b offs hb0 hb1 hin
    obtain ⟨b, h0, h1, hm, hd⟩ := index_map_surjective N block_shape space_size batch_size
      space_b offs hlen hs0 hsize hb0 hb1 hin
    refine ⟨b, h0, h1, ?_, ?_⟩
    · rw [spaceB, cMod_of_pos h0 hs0, hm]
    · rw [blockOffsets_eq N block_shape b space_size hlen hblk h0 hs0, hd]

theorem prepare_index_map_bijective_witness :
    (∀ batch_b, 0 ≤ batch_b → batch_b < 12 →
      ∃ space_b offs, spaceB batch_b 2 = some space_b
        ∧ blockOffsets 2 [2, 3] batch_b 2 = some offs
        ∧ 0 ≤ space_b ∧ space_b < 2 ∧ inBounds [2, 3] offs)
    ∧ (∀ b1 b2, 0 ≤ b1 → b1 < 12 → 0 ≤ b2 → b2 < 12 →
      spaceB b1 2 = spaceB b2 2 →
      blockOffsets 2 [2, 3] b1 2 = blockOffsets 2 [2, 3] b2 2 →
      b1 = b2)
    ∧ (∀ space_b offs, 0 ≤ space_b → space_b < 2 → inBounds [2, 3] offs →
      ∃ batch_b, 0 ≤ batch_b ∧ batch_b < 12
        ∧ spaceB batch_b 2 = some space_b
        ∧ blockOffsets 2 [2, 3] batch_b 2 = some offs) :=
  prepare_index_map_bijective 2 [2, 3] 2 12 rfl (by decide) (by decide) (by decide)

/-! ## The calls issued by `_prepare` -/

theorem sizeAt_nonneg {α : Type} (a : NDArray α) (d : Nat) : 0 ≤ a.sizeAt d := by
  unfold NDArray.sizeAt
  by_cases hd : d < a.shape.length
  · rw [List.getD_eq_getElem _ _ hd]
    exact a.shape_nonneg _ (List.getElem_mem hd)
  · rw [List.getD_eq_default _ _ (not_lt.mp hd)]

theorem collect_some_mem {β : Type} : ∀ (l : List (Option β)) (xs : List β),
    collect l = some xs → ∀ x ∈ xs, some x ∈ l := by
  intro l
  induction l with
  | nil =>
    intro xs h x hx
    simp only [collect, Option.some.injEq] at h
    subst h
    cases hx
  | cons o rest ih =>
    intro xs h x hx
    cases o with
    | none => simp [collect] at h
    | some y =>
      simp only [collect, Option.map_eq_some'] at h
      obtain ⟨ys, hys, rfl⟩ := h
      rcases List.mem_cons.mp hx with h1 | h1
      · subst h1; exact List.mem_cons_self _ _
      · exact List.mem_cons_of_mem _ (ih ys hys x h1)

theorem collect_map {β γ : Type} (l : List γ) (f : γ → Option β) (g : γ → β)
    (h : ∀ x ∈ l, f x = some (g x)) : collect (l.map f) = some (l.map g) := by
  induction l with
  | nil => rfl
  | cons x xs ih =>
    rw [List.map_cons, h x (List.mem_cons_self _ _), List.map_cons]
    simp only [collect]
    rw [ih (fun y hy => h y (List.mem_cons_of_mem _ hy))]
    rfl

theorem getD_map_range (N d : Nat) (f : Nat → Nd4jLong) (hd : d < N) :
    ((List.range N).map f).getD d 0 = f d := by
  rw [List.getD_eq_getElem?_getD, List.getElem?_map, List.getElem?_range hd]
  rfl

theorem map_range_getD (l : List Nd4jLong) :
    (List.range l.length).map (fun d => l.getD d 0) = l := by
  apply List.ext_getElem
  · simp
  · intro n h1 h2
    simp [← List.getD_eq_getElem?_getD, List.getD_eq_getElem _ _ h2]

theorem prepareArrays_block_shape {α : Type} (N : Nat) (space batch : NDArray α)
    (block_array padding_array : List Nd4jLong) (hlen : block_array.length = N) :
    (prepareArrays N space batch block_array padding_array).block_shape = block_array := by
  subst hlen
  exact map_range_getD block_array

theorem prepareBatch_eq {α : Type} (N : Nat) (space batch : NDArray α)
    (block_array padding_array : List Nd4jLong) (batch_b : Nd4jLong)
    (hlen : block_array.length = N) (hblk : ∀ b ∈ block_array, 1 ≤ b) (hb : 0 ≤ batch_b)
    (hs : 0 < space.sizeAt 0) (hsb : space.sizeAt 0 < 2147483648) :
    prepareBatch N space batch (prepareArrays N space batch block_array padding_array) batch_b
      = some (callArgs N space batch block_array padding_array batch_b) := by
  have hbs := prepareArrays_block_shape N space batch block_array padding_array hlen
  unfold prepareBatch callArgs
  simp only [narrowToInt_of_lt (le_of_lt hs) hsb, spaceB, cMod_of_pos hb hs, Option.some_bind]
  rw [hbs, blockOffsets_eq N block_array batch_b _ hlen hblk hb hs]
  simp

theorem prepare_eq {α : Type} (N : Nat) (space batch : NDArray α)
    (block_array padding_array : List Nd4jLong)
    (hreads : readsInBounds N space batch block_array padding_array = true)
    (hlen : block_array.length = N) (hblk : ∀ b ∈ block_array, 1 ≤ b)
    (hs : 0 < batch.sizeAt 0 → 0 < space.sizeAt 0)
    (hbb : batch.sizeAt 0 < 2147483648) (hsb : space.sizeAt 0 < 2147483648) :
    _prepare N space batch block_array padding_array
      = some ((List.range (batch.sizeAt 0).toNat).map fun batch_b : Nat =>
          callArgs N space batch block_array padding_array (batch_b : Nd4jLong)) := by
  unfold _prepare
  rw [if_pos hreads]
  simp only [narrowToInt_of_lt (sizeAt_nonneg batch 0) hbb]
  apply collect_map
  intro x hx
  rw [List.mem_range] at hx
  have hpos : 0 < batch.sizeAt 0 := by
    by_contra hneg
    rw [Int.toNat_of_nonpos (not_lt.mp hneg)] at hx
    exact Nat.not_lt_zero _ hx
  exact prepareBatch_eq N space batch block_array padding_array _ hlen hblk
    (Int.ofNat_nonneg x) (hs hpos) hsb

theorem prepare_of_empty {α : Type} (N : Nat) (space batch : NDArray α)
    (block_array padding_array : List Nd4jLong)
    (hreads : readsInBounds N space batch block_array padding_array = true)
    (hb : batch.sizeAt 0 = 0) :
    _prepare N space batch block_array padding_array = some [] := by
  unfold _prepare
  rw [if_pos hreads]
  simp [hb, narrowToInt, collect]

/-! ## Stores -/

theorem applyWrites_append {α : Type} (ws1 ws2 : List (List Nd4jLong × α))
    (data : List Nd4jLong → α) :
    applyWrites (ws1 ++ ws2) data = applyWrites ws2 (applyWrites ws1 data) := by
  unfold applyWrites
  rw [List.foldl_append]

theorem applyWrites_of_forall_ne {α : Type} (ws : List (List Nd4jLong × α))
    (p : List Nd4jLong) (hne : ∀ w ∈ ws, w.1 ≠ p) :
    ∀ data : List Nd4jLong → α, applyWrites ws data p = data p := by
  induction ws with
  | nil => intro data; rfl
  | cons w rest ih =>
    intro data
    have h1 : applyWrites (w :: rest) data = applyWrites rest (Function.update data w.1 w.2) :=
      rfl
    rw [h1, ih (fun x hx => hne x (List.mem_cons_of_mem _ hx))]
    exact Function.update_noteq (Ne.symm (hne w (List.mem_cons_self _ _))) _ _

theorem applyWrites_of_mem {α : Type} (ws : List (List Nd4jLong × α)) (p : List Nd4jLong)
    (v : α) (hex : ∃ w ∈ ws, w.1 = p) (hall : ∀ w ∈ ws, w.1 = p → w.2 = v) :
    ∀ data : List Nd4jLong → α, applyWrites ws data p = v := by
  induction ws with
  | nil => obtain ⟨w, hw, _⟩ := hex; cases hw
  | cons w rest ih =>
    intro data
    have h1 : applyWrites (w :: rest) data = applyWrites rest (Function.update data w.1 w.2) :=
      rfl
    rw [h1]
    by_cases hrest : ∃ x ∈ rest, x.1 = p
    · exact ih hrest (fun x hx => hall x (List.mem_cons_of_mem _ hx)) _
    · have hne : ∀ x ∈ rest, x.1 ≠ p := fun x hx hp => hrest ⟨x, hx, hp⟩
      rw [applyWrites_of_forall_ne rest p hne]
      obtain ⟨x, hx, hxp⟩ := hex
      rcases List.mem_cons.mp hx with hxw | hxr
      · subst hxw
        rw [← hxp, Function.update_same]
        exact hall x (List.mem_cons_self _ _) hxp
      · exact absurd hxp (hne x hxr)

/-! ## Index boxes -/

theorem mem_grid : ∀ (shape idx : List Nd4jLong), idx ∈ grid shape ↔ inBounds shape idx := by
  intro shape
  induction shape with
  | nil =>
    intro idx
    simp [grid, inBounds]
  | cons n rest ih =>
    intro idx
    simp only [grid, List.mem_flatMap, List.mem_range, List.mem_map]
    constructor
    · rintro ⟨i, hi, tl, htl, rfl⟩
      obtain ⟨hl, hb⟩ := (ih tl).mp htl
      refine ⟨by simp [hl], ?_⟩
      intro d hd
      cases d with
      | zero =>
        simp only [List.getD_cons_zero]
        exact ⟨Int.ofNat_nonneg i, (Int.lt_toNat).mp hi⟩
      | succ d =>
        simp only [List.getD_cons_succ]
        exact hb d (by simpa using hd)
    · rintro ⟨hl, hb⟩
      cases idx with
      | nil => simp at hl
      | cons i tl =>
        have h0 := hb 0 (by simp)
        simp only [List.getD_cons_zero] at h0
        refine ⟨i.toNat, (Int.toNat_lt_toNat (lt_of_le_of_lt h0.1 h0.2)).mpr h0.2, tl, ?_, ?_⟩
        · apply (ih tl).mpr
          refine ⟨by simpa using hl, ?_⟩
          intro d hd
          have := hb (d + 1) (by simpa using hd)
          simpa only [List.getD_cons_succ] using this
        · rw [Int.toNat_of_nonneg h0.1]

theorem mem_cellPositions (a : ExecuteArgs) (channels : Nd4jLong) (s : List Nd4jLong)
    (c : Nd4jLong) :
    (s, c) ∈ cellPositions a channels ↔ inBounds a.batch_shape s ∧ 0 ≤ c ∧ c < channels := by
  simp only [cellPositions, List.mem_flatMap, List.mem_map, List.mem_range, mem_grid,
    Prod.mk.injEq]
  constructor
  · rintro ⟨s2, hs2, n, hn, rfl, rfl⟩
    exact ⟨hs2, Int.ofNat_nonneg n, (Int.lt_toNat).mp hn⟩
  · rintro ⟨hs, hc0, hc1⟩
    exact ⟨s, hs, c.toNat, (Int.toNat_lt_toNat (lt_of_le_of_lt hc0 hc1)).mpr hc1, rfl,
      Int.toNat_of_nonneg hc0⟩

/-! ## Running the calls -/

theorem run_s2b {α : Type} [Zero α] (N : Nat) (space : NDArray α) :
    ∀ (calls : List ExecuteArgs) (batch : NDArray α),
      calls.foldl (fun st a => _execute N false a st.1 st.2) (space, batch)
        = (space, { batch with
            data := applyWrites
              (calls.flatMap fun a => s2bWrites N a space (batch.sizeAt (N + 1))) batch.data }) := by
  intro calls
  induction calls with
  | nil => intro batch; rfl
  | cons a rest ih =>
    intro batch
    rw [List.foldl_cons]
    have h1 : _execute N false a space batch
        = (space, { batch with
            data := applyWrites (s2bWrites N a space (batch.sizeAt (N + 1))) batch.data }) := rfl
    simp only [h1]
    rw [ih]
    simp only [List.flatMap_cons, applyWrites_append]
    rfl

theorem run_b2s {α : Type} [Zero α] (N : Nat) (batch : NDArray α) :
    ∀ (calls : List ExecuteArgs) (space : NDArray α),
      calls.foldl (fun st a => _execute N true a st.1 st.2) (space, batch)
        = ({ space with
            data := applyWrites
              (calls.flatMap fun a => b2sWrites N a batch (batch.sizeAt (N + 1))) space.data },
            batch) := by
  intro calls
  induction calls with
  | nil => intro space; rfl
  | cons a rest ih =>
    intro space
    rw [List.foldl_cons]
    have h1 : _execute N true a space batch
        = ({ space with
            data := applyWrites (b2sWrites N a batch (batch.sizeAt (N + 1))) space.data },
            batch) := rfl
    simp only [h1]
    rw [ih]
    simp only [List.flatMap_cons, applyWrites_append]

/-! ## Shapes -/

theorem getD_layout (x c : Nd4jLong) (N : Nat) (f : Nat → Nd4jLong) :
    ([x] ++ (List.range N).map f ++ [c]).length = N + 2
      ∧ ([x] ++ (List.range N).map f ++ [c]).getD 0 0 = x
      ∧ (∀ d, d < N → ([x] ++ (List.range N).map f ++ [c]).getD (d + 1) 0 = f d)
      ∧ ([x] ++ (List.range N).map f ++ [c]).getD (N + 1) 0 = c := by
  refine ⟨by simp, by simp, ?_, ?_⟩
  · intro d hd
    rw [List.append_assoc, List.singleton_append, List.getD_cons_succ,
      List.getD_append _ _ _ _ (by simpa using hd), getD_map_range N d f hd]
  · rw [List.append_assoc, List.singleton_append, List.getD_cons_succ,
      List.getD_append_right _ _ _ _ (by simp)]
    simp

theorem index_inj {b1 b2 c1 c2 : Nd4jLong} {s1 s2 : List Nd4jLong}
    (h : [b1] ++ s1 ++ [c1] = [b2] ++ s2 ++ [c2]) : b1 = b2 ∧ s1 = s2 ∧ c1 = c2 := by
  obtain ⟨h1, h2⟩ := List.append_inj' h rfl
  simp only [List.singleton_append, List.cons.injEq] at h1
  exact ⟨h1.1, h1.2, by simpa using h2⟩

theorem inSpace_iff (N : Nat) (a : ExecuteArgs) (pos : List Nd4jLong) :
    inSpace N a pos = true
      ↔ ∀ d, d < N → 0 ≤ pos.getD d 0 ∧ pos.getD d 0 < a.space_shape.getD d 0 := by
  simp [inSpace, List.all_eq_true]

/-! ## Space to batch -/

theorem runPrepare_s2b {α : Type} [Zero α] (N : Nat) (space batch : NDArray α)
    (block_array padding_array : List Nd4jLong)
    (hreads : readsInBounds N space batch block_array padding_array = true)
    (hlen : block_array.length = N) (hblk : ∀ b ∈ block_array, 1 ≤ b)
    (hs : 0 < batch.sizeAt 0 → 0 < space.sizeAt 0)
    (hbb : batch.sizeAt 0 < 2147483648) (hsb : space.sizeAt 0 < 2147483648) :
    runPrepare N false space batch block_array padding_array
      = some (space, { batch with
          data := applyWrites
            (((List.range (batch.sizeAt 0).toNat).map fun batch_b : Nat =>
                callArgs N space batch block_array padding_array (batch_b : Nd4jLong)).flatMap
              fun a => s2bWrites N a space (batch.sizeAt (N + 1))) batch.data }) := by
  unfold runPrepare
  rw [prepare_eq N space batch block_array padding_array hreads hlen hblk hs hbb hsb,
    Option.map_some', run_s2b]

theorem argumentsValid_iff (block_shape amounts : List Nd4jLong) :
    argumentsValid block_shape amounts = true
      ↔ (∀ b ∈ block_shape, 1 ≤ b) ∧ ∀ p ∈ amounts, 0 ≤ p := by
  simp [argumentsValid, List.all_eq_true]

theorem spaceToBatchShapesValid_iff {α : Type} (N : Nat) (input output : NDArray α)
    (block_shape paddings : List Nd4jLong) :
    spaceToBatchShapesValid N input output block_shape paddings = true
      ↔ input.shape.length = N + 2 ∧ block_shape.length = N ∧ paddings.length = N * 2
        ∧ (∀ d, d < N →
          (input.sizeAt (d + 1) + paddings.getD (2 * d) 0 + paddings.getD (2 * d + 1) 0)
            % block_shape.getD d 0 = 0)
        ∧ output.shape = spaceToBatchShape N input block_shape paddings := by
  simp [spaceToBatchShapesValid, List.all_eq_true, and_assoc]

theorem spacePos_callArgs {α : Type} (N : Nat) (space batch : NDArray α)
    (block_array padding_array : List Nd4jLong) (b : Nd4jLong) (s : List Nd4jLong)
    (hlen : block_array.length = N) :
    spacePos N (callArgs N space batch block_array padding_array b) s
      = (List.range N).map fun d =>
          s.getD d 0 * block_array.getD d 0
            + (mixedRadixDigits block_array N (b / space.sizeAt 0)).getD d 0
            - padding_array.getD (2 * d) 0 := by
  have hbs := prepareArrays_block_shape N space batch block_array padding_array hlen
  unfold spacePos
  apply List.map_congr_left
  intro d hd
  rw [List.mem_range] at hd
  have hp : (callArgs N space batch block_array padding_array b).pad_start.getD d 0
      = padding_array.getD (2 * d) 0 := by
    simp only [callArgs, prepareArrays]
    rw [getD_map_range N d _ hd, mul_comm]
  have ho : (callArgs N space batch block_array padding_array b).block_offsets
      = mixedRadixDigits block_array N (b / space.sizeAt 0) := by
    simp only [callArgs]; rw [hbs]
  have hk : (callArgs N space batch block_array padding_array b).block_shape = block_array := by
    simp only [callArgs]; rw [hbs]
  rw [hp, ho, hk]

theorem inSpace_callArgs {α : Type} (N : Nat) (space batch : NDArray α)
    (block_array padding_array : List Nd4jLong) (b : Nd4jLong) (pos : List Nd4jLong) :
    inSpace N (callArgs N space batch block_array padding_array b) pos = true
      ↔ ∀ d, d < N → 0 ≤ pos.getD d 0 ∧ pos.getD d 0 < space.sizeAt (d + 1) := by
  rw [inSpace_iff]
  constructor
  · intro h d hd
    have := h d hd
    simp only [callArgs, prepareArrays] at this
    rwa [getD_map_range N d _ hd] at this
  · intro h d hd
    simp only [callArgs, prepareArrays]
    rw [getD_map_range N d _ hd]
    exact h d hd

theorem inBounds_batch_shape {α : Type} (N : Nat) (space batch : NDArray α)
    (block_array padding_array : List Nd4jLong) (s : List Nd4jLong) :
    inBounds (prepareArrays N space batch block_array padding_array).batch_shape s
      ↔ s.length = N ∧ ∀ d, d < N → 0 ≤ s.getD d 0 ∧ s.getD d 0 < batch.sizeAt (d + 1) := by
  simp only [inBounds, prepareArrays, List.length_map, List.length_range]
  constructor
  · rintro ⟨hl, h⟩
    refine ⟨hl, fun d hd => ?_⟩
    have := h d hd
    rwa [getD_map_range N d _ hd] at this
  · rintro ⟨hl, h⟩
    refine ⟨hl, fun d hd => ?_⟩
    rw [getD_map_range N d _ hd]
    exact h d hd

theorem spaceToBatch_run {α : Type} [Zero α] (N : Nat) (input output : NDArray α)
    (block_shape paddings : List Nd4jLong)
    (hargs : argumentsValid block_shape paddings = true)
    (hshape : spaceToBatchShapesValid N input output block_shape paddings = true)
    (hfit : output.sizeAt 0 < 2147483648) :
    _spaceToBatch N input output block_shape paddings
      = some (Nd4jStatus.OK, { output with
          data := applyWrites
            (((List.range (output.sizeAt 0).toNat).map fun batch_b : Nat =>
                callArgs N input output block_shape paddings (batch_b : Nd4jLong)).flatMap
              fun a => s2bWrites N a input (output.sizeAt (N + 1))) output.data }) := by
  obtain ⟨hblk, _⟩ := (argumentsValid_iff _ _).mp hargs
  obtain ⟨hin, hlen, hplen, _, hout⟩ := (spaceToBatchShapesValid_iff _ _ _ _ _).mp hshape
  obtain ⟨hl, h0, _, _⟩ := getD_layout (input.sizeAt 0 * blockProduct block_shape)
    (input.sizeAt (N + 1)) N (fun d =>
      (input.sizeAt (d + 1) + paddings.getD (2 * d) 0 + paddings.getD (2 * d + 1) 0)
        / block_shape.getD d 0)
  have hreads : readsInBounds N input output block_shape paddings = true := by
    simp only [readsInBounds, Bool.and_eq_true, decide_eq_true_eq]
    refine ⟨⟨⟨by omega, ?_⟩, by omega⟩, by omega⟩
    rw [hout]; unfold spaceToBatchShape; omega
  have e : output.sizeAt 0 = input.sizeAt 0 * blockProduct block_shape := by
    unfold NDArray.sizeAt; rw [hout]; exact h0
  have hs : 0 < output.sizeAt 0 → 0 < input.sizeAt 0 := by
    intro hpos
    rw [e] at hpos
    exact pos_of_mul_pos_left hpos (le_of_lt (blockProduct_pos _ hblk))
  have hsb : input.sizeAt 0 < 2147483648 := by
    have hle := mul_le_mul_of_nonneg_left (Int.add_one_le_of_lt (blockProduct_pos _ hblk))
      (sizeAt_nonneg input 0)
    rw [zero_add, mul_one] at hle
    exact lt_of_le_of_lt hle (by rw [← e]; exact hfit)
  unfold _spaceToBatch
  rw [hargs, hshape,
    runPrepare_s2b N input output block_shape paddings hreads hlen hblk hs hfit hsb]
  rfl

theorem s2b_sizes {α : Type} (N : Nat) (input output : NDArray α)
    (block_shape paddings : List Nd4jLong)
    (hout : output.shape = spaceToBatchShape N input block_shape paddings) :
    output.sizeAt 0 = input.sizeAt 0 * blockProduct block_shape
      ∧ (∀ d, d < N → output.sizeAt (d + 1)
        = (input.sizeAt (d + 1) + paddings.getD (2 * d) 0 + paddings.getD (2 * d + 1) 0)
          / block_shape.getD d 0)
      ∧ output.sizeAt (N + 1) = input.sizeAt (N + 1) := by
  obtain ⟨_, h0, h1, h2⟩ := getD_layout (input.sizeAt 0 * blockProduct block_shape)
    (input.sizeAt (N + 1)) N (fun d =>
      (input.sizeAt (d + 1) + paddings.getD (2 * d) 0 + paddings.getD (2 * d + 1) 0)
        / block_shape.getD d 0)
  refine ⟨?_, ?_, ?_⟩
  · show output.shape.getD 0 0 = _
    rw [hout]; exact h0
  · intro d hd
    show output.shape.getD (d + 1) 0 = _
    rw [hout]; exact h1 d hd
  · show output.shape.getD (N + 1) 0 = _
    rw [hout]; exact h2

theorem ext_getD (l1 l2 : List Nd4jLong) (hl : l1.length = l2.length)
    (h : ∀ d, d < l1.length → l1.getD d 0 = l2.getD d 0) : l1 = l2 := by
  apply List.ext_getElem hl
  intro d h1 h2
  have := h d h1
  rwa [List.getD_eq_getElem _ _ h1, List.getD_eq_getElem _ _ h2] at this

theorem spacePos_inj {α : Type} (N : Nat) (space batch : NDArray α)
    (block_array padding_array : List Nd4jLong) (n1 n2 : Nd4jLong) (s1 s2 : List Nd4jLong)
    (hlen : block_array.length = N) (hblk : ∀ b ∈ block_array, 1 ≤ b)
    (hs0 : 0 < space.sizeAt 0)
    (hsize : batch.sizeAt 0 = space.sizeAt 0 * blockProduct block_array)
    (h1 : 0 ≤ n1 ∧ n1 < batch.sizeAt 0) (h2 : 0 ≤ n2 ∧ n2 < batch.sizeAt 0)
    (hl1 : s1.length = N) (hl2 : s2.length = N)
    (hm : n1 % space.sizeAt 0 = n2 % space.sizeAt 0)
    (hpos : spacePos N (callArgs N space batch block_array padding_array n1) s1
      = spacePos N (callArgs N space batch block_array padding_array n2) s2) :
    n1 = n2 ∧ s1 = s2 := by
  rw [spacePos_callArgs N space batch block_array padding_array n1 s1 hlen,
    spacePos_callArgs N space batch block_array padding_array n2 s2 hlen] at hpos
  obtain ⟨hq10, hq11⟩ := quotient_bounds hs0 hsize h1.1 h1.2
  obtain ⟨hq20, hq21⟩ := quotient_bounds hs0 hsize h2.1 h2.2
  obtain ⟨ho1l, ho1⟩ := mixedRadixDigits_inBounds N block_array _ hlen hblk hq10 hq11
  obtain ⟨ho2l, ho2⟩ := mixedRadixDigits_inBounds N block_array _ hlen hblk hq20 hq21
  have hdig : ∀ d, d < N → s1.getD d 0 = s2.getD d 0
      ∧ (mixedRadixDigits block_array N (n1 / space.sizeAt 0)).getD d 0
        = (mixedRadixDigits block_array N (n2 / space.sizeAt 0)).getD d 0 := by
    intro d hd
    have e := congrArg (fun l => List.getD l d 0) hpos
    simp only at e
    rw [getD_map_range N d _ hd, getD_map_range N d _ hd] at e
    have hk : 0 < block_array.getD d 0 := getD_pos_of_forall hblk (by rw [hlen]; exact hd)
    obtain ⟨a1, a2⟩ := ho1 d (by rw [hlen]; exact hd)
    obtain ⟨b1, b2⟩ := ho2 d (by rw [hlen]; exact hd)
    have u1 := (Int.ediv_emod_unique
      (a := s1.getD d 0 * block_array.getD d 0
        + (mixedRadixDigits block_array N (n1 / space.sizeAt 0)).getD d 0)
      (r := (mixedRadixDigits block_array N (n1 / space.sizeAt 0)).getD d 0)
      (q := s1.getD d 0) hk).mpr ⟨by ring, a1, a2⟩
    have u2 := (Int.ediv_emod_unique
      (a := s1.getD d 0 * block_array.getD d 0
        + (mixedRadixDigits block_array N (n1 / space.sizeAt 0)).getD d 0)
      (r := (mixedRadixDigits block_array N (n2 / space.sizeAt 0)).getD d 0)
      (q := s2.getD d 0) hk).mpr ⟨by linarith, b1, b2⟩
    exact ⟨u1.1.symm.trans u2.1, u1.2.symm.trans u2.2⟩
  have hoffs : mixedRadixDigits block_array N (n1 / space.sizeAt 0)
      = mixedRadixDigits block_array N (n2 / space.sizeAt 0) := by
    apply ext_getD
    · rw [length_mixedRadixDigits, length_mixedRadixDigits]
    · intro d hd
      rw [length_mixedRadixDigits] at hd
      exact (hdig d hd).2
  refine ⟨index_map_injective N block_array _ _ n1 n2 hlen hs0 hsize h1.1 h1.2 h2.1 h2.2 hm
    hoffs, ?_⟩
  apply ext_getD _ _ (by rw [hl1, hl2])
  intro d hd'
  rw [hl1] at hd'
  exact (hdig d hd').1

theorem b2s_value {α : Type} (N : Nat) (space batch : NDArray α)
    (block_array padding_array : List Nd4jLong) (n : Nd4jLong) (s : List Nd4jLong)
    (c : Nd4jLong) (hlen : block_array.length = N) (hblk : ∀ b ∈ block_array, 1 ≤ b)
    (hs0 : 0 < space.sizeAt 0)
    (hsize : batch.sizeAt 0 = space.sizeAt 0 * blockProduct block_array)
    (hn : 0 ≤ n ∧ n < batch.sizeAt 0)
    (hs : inBounds (prepareArrays N space batch block_array padding_array).batch_shape s)
    (hc : 0 ≤ c ∧ c < batch.sizeAt (N + 1))
    (hin : inSpace N (callArgs N space batch block_array padding_array n)
      (spacePos N (callArgs N space batch block_array padding_array n) s) = true)
    (data : List Nd4jLong → α) :
    applyWrites
        (((List.range (batch.sizeAt 0).toNat).map fun batch_b : Nat =>
            callArgs N space batch block_array padding_array (batch_b : Nd4jLong)).flatMap
          fun a => b2sWrites N a batch (batch.sizeAt (N + 1))) data
        ([(callArgs N space batch block_array padding_array n).space_b]
          ++ spacePos N (callArgs N space batch block_array padding_array n) s ++ [c])
      = batch.data ([n] ++ s ++ [c]) := by
  have hsl : s.length = N := ((inBounds_batch_shape N space batch block_array padding_array s).mp
    hs).1
  apply applyWrites_of_mem
  · refine ⟨([(callArgs N space batch block_array padding_array n).space_b]
        ++ spacePos N (callArgs N space batch block_array padding_array n) s ++ [c],
      batch.data ([n] ++ s ++ [c])), ?_, rfl⟩
    simp only [List.mem_flatMap, List.mem_map, List.mem_range]
    refine ⟨_, ⟨n.toNat, (Int.toNat_lt_toNat (lt_of_le_of_lt hn.1 hn.2)).mpr hn.2, rfl⟩, ?_⟩
    rw [Int.toNat_of_nonneg hn.1]
    simp only [b2sWrites, b2sStores, List.mem_map, List.mem_filterMap]
    refine ⟨([n] ++ s ++ [c],
      [(callArgs N space batch block_array padding_array n).space_b]
        ++ spacePos N (callArgs N space batch block_array padding_array n) s ++ [c],
      batch.data ([n] ++ s ++ [c])),
      ⟨(s, c), (mem_cellPositions _ _ _ _).mpr ⟨hs, hc.1, hc.2⟩, ?_⟩, rfl⟩
    simp only [b2sStore, hin, if_true]
    rfl
  · intro w hw hwp
    simp only [List.mem_flatMap, List.mem_map, List.mem_range] at hw
    obtain ⟨a, ⟨m, hm, rfl⟩, hw⟩ := hw
    simp only [b2sWrites, b2sStores, List.mem_map, List.mem_filterMap] at hw
    obtain ⟨st, ⟨p, hp, hw⟩, rfl⟩ := hw
    obtain ⟨p1, p2⟩ := p
    have hp' := (mem_cellPositions _ _ _ _).mp hp
    have hp1l : p1.length = N :=
      ((inBounds_batch_shape N space batch block_array padding_array p1).mp hp'.1).1
    simp only [b2sStore] at hw
    split at hw
    · have hw' := Option.some.inj hw
      subst hw'
      obtain ⟨e1, e2, e3⟩ := index_inj hwp
      have hm2 : (m : Nd4jLong) < batch.sizeAt 0 := (Int.lt_toNat).mp hm
      obtain ⟨e4, e5⟩ := spacePos_inj N space batch block_array padding_array (m : Nd4jLong) n
        p1 s hlen hblk hs0 hsize ⟨Int.ofNat_nonneg m, hm2⟩ hn hp1l hsl e1 e2
      show batch.data ([(m : Nd4jLong)] ++ p1 ++ [p2]) = _
      rw [e4, e5, e3]
    · cases hw

theorem runPrepare_b2s {α : Type} [Zero α] (N : Nat) (space batch : NDArray α)
    (block_array padding_array : List Nd4jLong)
    (hreads : readsInBounds N space batch block_array padding_array = true)
    (hlen : block_array.length = N) (hblk : ∀ b ∈ block_array, 1 ≤ b)
    (hs : 0 < batch.sizeAt 0 → 0 < space.sizeAt 0)
    (hbb : batch.sizeAt 0 < 2147483648) (hsb : space.sizeAt 0 < 2147483648) :
    runPrepare N true space batch block_array padding_array
      = some ({ space with
          data := applyWrites
            (((List.range (batch.sizeAt 0).toNat).map fun batch_b : Nat =>
                callArgs N space batch block_array padding_array (batch_b : Nd4jLong)).flatMap
              fun a => b2sWrites N a batch (batch.sizeAt (N + 1))) space.data }, batch) := by
  unfold runPrepare
  rw [prepare_eq N space batch block_array padding_array hreads hlen hblk hs hbb hsb,
    Option.map_some', run_b2s]

theorem map_range_eq (N : Nat) (f : Nat → Nd4jLong) (s : List Nd4jLong) (hl : s.length = N)
    (h : ∀ d, d < N → f d = s.getD d 0) : (List.range N).map f = s := by
  apply ext_getD
  · simp [hl]
  · intro d hd
    have hd' : d < N := by simpa using hd
    rw [getD_map_range N d f hd', h d hd']

theorem batchToSpaceShapesValid_iff {α : Type} (N : Nat) (input output : NDArray α)
    (block_shape crops : List Nd4jLong) :
    batchToSpaceShapesValid N input output block_shape crops = true
      ↔ input.shape.length = N + 2 ∧ block_shape.length = N ∧ crops.length = N * 2
        ∧ input.sizeAt 0 % blockProduct block_shape = 0
        ∧ (∀ d, d < N →
          crops.getD (2 * d) 0 ≤ block_shape.getD d 0 * input.sizeAt (d + 1)
            ∧ crops.getD (2 * d + 1) 0 ≤ block_shape.getD d 0 * input.sizeAt (d + 1)
            ∧ 1 ≤ block_shape.getD d 0 * input.sizeAt (d + 1) - crops.getD (2 * d) 0
              - crops.getD (2 * d + 1) 0)
        ∧ output.shape = batchToSpaceShape N input block_shape crops := by
  simp [batchToSpaceShapesValid, List.all_eq_true, and_assoc]

theorem b2s_sizes {α : Type} (N : Nat) (input output : NDArray α)
    (block_shape crops : List Nd4jLong)
    (hout : output.shape = batchToSpaceShape N input block_shape crops) :
    output.shape.length = N + 2
      ∧ output.sizeAt 0 = input.sizeAt 0 / blockProduct block_shape
      ∧ (∀ d, d < N → output.sizeAt (d + 1)
        = block_shape.getD d 0 * input.sizeAt (d + 1) - crops.getD (2 * d) 0
          - crops.getD (2 * d + 1) 0)
      ∧ output.sizeAt (N + 1) = input.sizeAt (N + 1) := by
  obtain ⟨hl, h0, h1, h2⟩ := getD_layout (input.sizeAt 0 / blockProduct block_shape)
    (input.sizeAt (N + 1)) N (fun d =>
      block_shape.getD d 0 * input.sizeAt (d + 1) - crops.getD (2 * d) 0
        - crops.getD (2 * d + 1) 0)
  refine ⟨?_, ?_, ?_, ?_⟩
  · rw [hout]; exact hl
  · show output.shape.getD 0 0 = _
    rw [hout]; exact h0
  · intro d hd
    show output.shape.getD (d + 1) 0 = _
    rw [hout]; exact h1 d hd
  · show output.shape.getD (N + 1) 0 = _
    rw [hout]; exact h2

theorem b2s_batch_size {α : Type} (N : Nat) (input output : NDArray α)
    (block_shape crops : List Nd4jLong)
    (hdiv : input.sizeAt 0 % blockProduct block_shape = 0)
    (hout : output.shape = batchToSpaceShape N input block_shape crops) :
    input.sizeAt 0 = output.sizeAt 0 * blockProduct block_shape := by
  rw [(b2s_sizes N input output block_shape crops hout).2.1]
  exact (Int.ediv_mul_cancel (Int.dvd_of_emod_eq_zero hdiv)).symm

theorem batchToSpace_run {α : Type} [Zero α] (N : Nat) (input output : NDArray α)
    (block_shape crops : List Nd4jLong)
    (hargs : argumentsValid block_shape crops = true)
    (hshape : batchToSpaceShapesValid N input output block_shape crops = true)
    (hfit : input.sizeAt 0 < 2147483648) :
    _batchToSpace N input output block_shape crops
      = some (Nd4jStatus.OK, { output with
          data := applyWrites
            (((List.range (input.sizeAt 0).toNat).map fun batch_b : Nat =>
                callArgs N output input block_shape crops (batch_b : Nd4jLong)).flatMap
              fun a => b2sWrites N a input (input.sizeAt (N + 1))) output.data }) := by
  obtain ⟨hblk, _⟩ := (argumentsValid_iff _ _).mp hargs
  obtain ⟨hin, hlen, hclen, hdiv, _, hout⟩ :=
    (batchToSpaceShapesValid_iff _ _ _ _ _).mp hshape
  obtain ⟨hl, _, _, _⟩ := b2s_sizes N input output block_shape crops hout
  have hsize := b2s_batch_size N input output block_shape crops hdiv hout
  have hreads : readsInBounds N output input block_shape crops = true := by
    simp only [readsInBounds, Bool.and_eq_true, decide_eq_true_eq]
    exact ⟨⟨⟨by omega, by omega⟩, by omega⟩, by omega⟩
  have hs : 0 < input.sizeAt 0 → 0 < output.sizeAt 0 := by
    intro hpos
    rw [hsize] at hpos
    exact pos_of_mul_pos_left hpos (le_of_lt (blockProduct_pos _ hblk))
  have hsb : output.sizeAt 0 < 2147483648 := by
    have hle := mul_le_mul_of_nonneg_left (Int.add_one_le_of_lt (blockProduct_pos _ hblk))
      (sizeAt_nonneg output 0)
    rw [zero_add, mul_one] at hle
    exact lt_of_le_of_lt hle (by rw [← hsize]; exact hfit)
  unfold _batchToSpace
  rw [hargs, hshape,
    runPrepare_b2s N output input block_shape crops hreads hlen hblk hs hfit hsb]
  rfl

/-! ## What a successful call went through -/

theorem spaceToBatch_ok_inv {α : Type} [Zero α] (N : Nat) (input output out : NDArray α)
    (block_shape paddings : List Nd4jLong)
    (hrun : _spaceToBatch N input output block_shape paddings = some (Nd4jStatus.OK, out)) :
    argumentsValid block_shape paddings = true
      ∧ spaceToBatchShapesValid N input output block_shape paddings = true
      ∧ ∃ calls, _prepare N input output block_shape paddings = some calls
        ∧ out = { output with
            data := applyWrites
              (calls.flatMap fun a => s2bWrites N a input (output.sizeAt (N + 1)))
              output.data } := by
  unfold _spaceToBatch at hrun
  by_cases hargs : argumentsValid block_shape paddings = true
  · by_cases hshape : spaceToBatchShapesValid N input output block_shape paddings = true
    · refine ⟨hargs, hshape, ?_⟩
      simp only [hargs, hshape, Bool.not_true, Bool.false_eq_true, if_false, runPrepare] at hrun
      cases hp : _prepare N input output block_shape paddings with
      | none => rw [hp] at hrun; simp at hrun
      | some calls =>
        rw [hp] at hrun
        simp only [Option.map_some', Option.some.injEq, Prod.mk.injEq, true_and] at hrun
        rw [run_s2b] at hrun
        exact ⟨calls, rfl, hrun.symm⟩
    · simp [hargs, hshape] at hrun
  · simp [hargs] at hrun

theorem batchToSpace_ok_inv {α : Type} [Zero α] (N : Nat) (input output out : NDArray α)
    (block_shape crops : List Nd4jLong)
    (hrun : _batchToSpace N input output block_shape crops = some (Nd4jStatus.OK, out)) :
    argumentsValid block_shape crops = true
      ∧ batchToSpaceShapesValid N input output block_shape crops = true
      ∧ ∃ calls, _prepare N output input block_shape crops = some calls
        ∧ out = { output with
            data := applyWrites
              (calls.flatMap fun a => b2sWrites N a input (input.sizeAt (N + 1)))
              output.data } := by
  unfold _batchToSpace at hrun
  by_cases hargs : argumentsValid block_shape crops = true
  · by_cases hshape : batchToSpaceShapesValid N input output block_shape crops = true
    · refine ⟨hargs, hshape, ?_⟩
      simp only [hargs, hshape, Bool.not_true, Bool.false_eq_true, if_false, runPrepare] at hrun
      cases hp : _prepare N output input block_shape crops with
      | none => rw [hp] at hrun; simp at hrun
      | some calls =>
        rw [hp] at hrun
        simp only [Option.map_some', Option.some.injEq, Prod.mk.injEq, true_and] at hrun
        rw [run_b2s] at hrun
        exact ⟨calls, rfl, hrun.symm⟩
    · simp [hargs, hshape] at hrun
  · simp [hargs] at hrun

theorem prepare_calls_inv {α : Type} (N : Nat) (space batch : NDArray α)
    (block_array padding_array : List Nd4jLong) (calls : List ExecuteArgs)
    (hp : _prepare N space batch block_array padding_array = some calls)
    (a : ExecuteArgs) (ha : a ∈ calls) :
    ∃ m : Nat, (m : Nd4jLong) < narrowToInt (batch.sizeAt 0)
      ∧ prepareBatch N space batch (prepareArrays N space batch block_array padding_array)
          (m : Nd4jLong) = some a := by
  unfold _prepare at hp
  by_cases hreads : readsInBounds N space batch block_array padding_array = true
  · rw [if_pos hreads] at hp
    have := collect_some_mem _ _ hp a ha
    simp only [List.mem_map, List.mem_range] at this
    obtain ⟨m, hm, hpb⟩ := this
    exact ⟨m, (Int.lt_toNat).mp hm, hpb⟩
  · rw [if_neg hreads] at hp
    cases hp

theorem prepareBatch_inv {α : Type} (N : Nat) (space batch : NDArray α)
    (arrays : PrepareArrays) (batch_b : Nd4jLong) (a : ExecuteArgs)
    (h : prepareBatch N space batch arrays batch_b = some a) :
    spaceB batch_b (narrowToInt (space.sizeAt 0)) = some a.space_b
      ∧ blockOffsets N arrays.block_shape batch_b (narrowToInt (space.sizeAt 0))
          = some a.block_offsets
      ∧ a.batch_b = batch_b ∧ a.block_shape = arrays.block_shape
      ∧ a.pad_start = arrays.pad_start ∧ a.space_shape = arrays.space_shape
      ∧ a.batch_shape = arrays.batch_shape := by
  unfold prepareBatch at h
  cases h1 : spaceB batch_b (narrowToInt (space.sizeAt 0)) with
  | none => simp [h1] at h
  | some sb =>
    cases h2 : blockOffsets N arrays.block_shape batch_b (narrowToInt (space.sizeAt 0)) with
    | none => simp [h1, h2] at h
    | some offs =>
      simp only [h1, h2, Option.some_bind, Option.some.injEq] at h
      subst h
      exact ⟨rfl, rfl, rfl, rfl, rfl, rfl, rfl⟩

/-! ## The stores of a batch-to-space run -/

theorem spacePos_of_fields {α : Type} (N : Nat) (space batch : NDArray α)
    (block_array padding_array : List Nd4jLong) (a : ExecuteArgs) (s : List Nd4jLong)
    (hlen : block_array.length = N)
    (hbs : a.block_shape = (prepareArrays N space batch block_array padding_array).block_shape)
    (hps : a.pad_start = (prepareArrays N space batch block_array padding_array).pad_start) :
    spacePos N a s
      = (List.range N).map fun d =>
          s.getD d 0 * block_array.getD d 0 + a.block_offsets.getD d 0
            - padding_array.getD (2 * d) 0 := by
  unfold spacePos
  apply List.map_congr_left
  intro d hd
  rw [List.mem_range] at hd
  rw [hbs, hps, prepareArrays_block_shape N space batch block_array padding_array hlen]
  simp only [prepareArrays]
  rw [getD_map_range N d _ hd, mul_comm d 2]

theorem b2s_store_inv {α : Type} (N : Nat) (input output : NDArray α)
    (block_shape crops : List Nd4jLong) (calls : List ExecuteArgs)
    (hlen : block_shape.length = N)
    (hp : _prepare N output input block_shape crops = some calls)
    (st : List Nd4jLong × List Nd4jLong × α)
    (hst : st ∈ calls.flatMap fun a => b2sStores N a input (input.sizeAt (N + 1))) :
    ∃ (m : Nd4jLong) (s : List Nd4jLong) (c : Nd4jLong) (a : ExecuteArgs),
      st.1 = [m] ++ s ++ [c]
      ∧ spaceB m (narrowToInt (output.sizeAt 0)) = some a.space_b
      ∧ blockOffsets N block_shape m (narrowToInt (output.sizeAt 0)) = some a.block_offsets
      ∧ (∀ d, d < N →
          0 ≤ s.getD d 0 * block_shape.getD d 0 + a.block_offsets.getD d 0
              - crops.getD (2 * d) 0
          ∧ s.getD d 0 * block_shape.getD d 0 + a.block_offsets.getD d 0
              - crops.getD (2 * d) 0 < output.sizeAt (d + 1))
      ∧ st.2.1 = [a.space_b] ++ ((List.range N).map fun d =>
          s.getD d 0 * block_shape.getD d 0 + a.block_offsets.getD d 0
            - crops.getD (2 * d) 0) ++ [c]
      ∧ st.2.2 = input.data ([m] ++ s ++ [c]) := by
  simp only [List.mem_flatMap, b2sStores, List.mem_filterMap] at hst
  obtain ⟨a, ha, p, _, hstore⟩ := hst
  obtain ⟨m, _, hpb⟩ := prepare_calls_inv N output input block_shape crops calls hp a ha
  obtain ⟨h1, h2, h3, h4, h5, h6, _⟩ := prepareBatch_inv N output input _ _ a hpb
  have hpos := spacePos_of_fields N output input block_shape crops a p.1 hlen h4 h5
  rw [prepareArrays_block_shape N output input block_shape crops hlen] at h2
  simp only [b2sStore] at hstore
  split at hstore
  · rename_i hin
    have hst' := Option.some.inj hstore
    subst hst'
    rw [inSpace_iff, hpos] at hin
    refine ⟨(m : Nd4jLong), p.1, p.2, a, ?_, h1, h2, ?_, ?_, ?_⟩
    · simp only [h3]
    · intro d hd
      have := hin d hd
      rw [getD_map_range N d _ hd, h6] at this
      simp only [prepareArrays] at this
      rw [getD_map_range N d _ hd] at this
      exact this
    · simp only [hpos]
    · simp only [h3]
  · cases hstore

theorem batchToSpace_prepare {α : Type} (N : Nat) (input output : NDArray α)
    (block_shape crops : List Nd4jLong)
    (hargs : argumentsValid block_shape crops = true)
    (hshape : batchToSpaceShapesValid N input output block_shape crops = true)
    (hfit : input.sizeAt 0 < 2147483648) :
    _prepare N output input block_shape crops
        = some ((List.range (input.sizeAt 0).toNat).map fun batch_b : Nat =>
            callArgs N output input block_shape crops (batch_b : Nd4jLong))
      ∧ output.sizeAt 0 < 2147483648
      ∧ input.sizeAt 0 = output.sizeAt 0 * blockProduct block_shape
      ∧ (0 < input.sizeAt 0 → 0 < output.sizeAt 0) := by
  obtain ⟨hblk, _⟩ := (argumentsValid_iff _ _).mp hargs
  obtain ⟨hin, hlen, hclen, hdiv, _, hout⟩ :=
    (batchToSpaceShapesValid_iff _ _ _ _ _).mp hshape
  obtain ⟨hl, _, _, _⟩ := b2s_sizes N input output block_shape crops hout
  have hsize := b2s_batch_size N input output block_shape crops hdiv hout
  have hreads : readsInBounds N output input block_shape crops = true := by
    simp only [readsInBounds, Bool.and_eq_true, decide_eq_true_eq]
    exact ⟨⟨⟨by omega, by omega⟩, by omega⟩, by omega⟩
  have hs : 0 < input.sizeAt 0 → 0 < output.sizeAt 0 := by
    intro hpos
    rw [hsize] at hpos
    exact pos_of_mul_pos_left hpos (le_of_lt (blockProduct_pos _ hblk))
  have hsb : output.sizeAt 0 < 2147483648 := by
    have hle := mul_le_mul_of_nonneg_left (Int.add_one_le_of_lt (blockProduct_pos _ hblk))
      (sizeAt_nonneg output 0)
    rw [zero_add, mul_one] at hle
    exact lt_of_le_of_lt hle (by rw [← hsize]; exact hfit)
  exact ⟨prepare_eq N output input block_shape crops hreads hlen hblk hs hfit hsb, hsb, hsize,
    hs⟩

theorem cropped_range_iff {α : Type} (N : Nat) (input output : NDArray α)
    (block_shape crops offs : List Nd4jLong) (s : List Nd4jLong)
    (hout : output.shape = batchToSpaceShape N input block_shape crops) :
    (∀ d, d < N →
        0 ≤ s.getD d 0 * block_shape.getD d 0 + offs.getD d 0 - crops.getD (2 * d) 0
        ∧ s.getD d 0 * block_shape.getD d 0 + offs.getD d 0 - crops.getD (2 * d) 0
          < output.sizeAt (d + 1))
      ↔ ∀ d, d < N →
        crops.getD (2 * d) 0 ≤ s.getD d 0 * block_shape.getD d 0 + offs.getD d 0
        ∧ s.getD d 0 * block_shape.getD d 0 + offs.getD d 0
          < block_shape.getD d 0 * input.sizeAt (d + 1) - crops.getD (2 * d + 1) 0 := by
  obtain ⟨_, _, hsz, _⟩ := b2s_sizes N input output block_shape crops hout
  constructor
  · intro h d hd
    have := h d hd
    rw [hsz d hd] at this
    constructor <;> linarith [this.1, this.2]
  · intro h d hd
    have := h d hd
    rw [hsz d hd]
    constructor <;> linarith [this.1, this.2]

/-- C7: when `_batchToSpace` succeeds, the output spatial extent is
`blockShape[d] * batchSpatialShape[d] - cropBefore[d] - cropAfter[d]`, and the output is the
pre-allocated tensor with the stores of the `_execute` calls of `_prepare` applied in order.
Every store of the run that reads the input element `(b', s', c)` has, with the decomposition of
`b'` derived by `_prepare` and `s_d = s'_d * blockShape[d] + blockOffset_d`, every `s_d` in
`[cropBefore[d], blockShape[d] * batchSpatialShape[d] - cropAfter[d])` and writes the output
coordinate `s_d - cropBefore[d]`; an element with some `s_d` outside that range is read by no
store of the run.  The upper bound is the expanded extent less the crop-after amount: the
`outSpatialShape` of the sentence is the spatial shape of the batch-layout tensor.  For an input
batch extent below `2^31`, every in-bounds element inside the range is read by a store of the run
and is the output element at its coordinate. -/
theorem batchToSpace_cropping {α : Type} [Zero α] (N : Nat) (input output out : NDArray α)
    (block_shape crops : List Nd4jLong)
    (hrun : _batchToSpace N input output block_shape crops = some (Nd4jStatus.OK, out)) :
    (∀ d, d < N → out.sizeAt (d + 1)
        = block_shape.getD d 0 * input.sizeAt (d + 1) - crops.getD (2 * d) 0
          - crops.getD (2 * d + 1) 0)
    ∧ ∃ calls, _prepare N output input block_shape crops = some calls
      ∧ out.data = applyWrites
          ((calls.flatMap fun a => b2sStores N a input (input.sizeAt (N + 1))).map
            fun st => (st.2.1, st.2.2)) output.data
      ∧ (∀ st ∈ calls.flatMap (fun a => b2sStores N a input (input.sizeAt (N + 1))),
          ∀ (b' : Nd4jLong) (s' : List Nd4jLong) (c : Nd4jLong), st.1 = [b'] ++ s' ++ [c] →
          ∃ b offs, spaceB b' (narrowToInt (out.sizeAt 0)) = some b
            ∧ blockOffsets N block_shape b' (narrowToInt (out.sizeAt 0)) = some offs
            ∧ (∀ d, d < N →
                crops.getD (2 * d) 0 ≤ s'.getD d 0 * block_shape.getD d 0 + offs.getD d 0
                ∧ s'.getD d 0 * block_shape.getD d 0 + offs.getD d 0
                  < block_shape.getD d 0 * input.sizeAt (d + 1) - crops.getD (2 * d + 1) 0)
            ∧ st.2.1 = [b] ++ ((List.range N).map fun d =>
                s'.getD d 0 * block_shape.getD d 0 + offs.getD d 0 - crops.getD (2 * d) 0)
                ++ [c]
            ∧ st.2.2 = input.data ([b'] ++ s' ++ [c]))
      ∧ (∀ (b' : Nd4jLong) (s' : List Nd4jLong) (c b : Nd4jLong) (offs : List Nd4jLong),
          spaceB b' (narrowToInt (out.sizeAt 0)) = some b →
          blockOffsets N block_shape b' (narrowToInt (out.sizeAt 0)) = some offs →
          (∃ d, d < N ∧
            ¬ (crops.getD (2 * d) 0 ≤ s'.getD d 0 * block_shape.getD d 0 + offs.getD d 0
              ∧ s'.getD d 0 * block_shape.getD d 0 + offs.getD d 0
                < block_shape.getD d 0 * input.sizeAt (d + 1) - crops.getD (2 * d + 1) 0)) →
          ∀ st ∈ calls.flatMap (fun a => b2sStores N a input (input.sizeAt (N + 1))),
            st.1 ≠ [b'] ++ s' ++ [c])
      ∧ (input.sizeAt 0 < 2147483648 →
          ∀ (b' : Nd4jLong) (s' : List Nd4jLong) (c : Nd4jLong),
          0 ≤ b' → b' < input.sizeAt 0 → s'.length = N →
          (∀ d, d < N → 0 ≤ s'.getD d 0 ∧ s'.getD d 0 < input.sizeAt (d + 1)) →
          0 ≤ c → c < input.sizeAt (N + 1) →
          ∃ b offs, spaceB b' (narrowToInt (out.sizeAt 0)) = some b
            ∧ blockOffsets N block_shape b' (narrowToInt (out.sizeAt 0)) = some offs
            ∧ ((∀ d, d < N →
                  crops.getD (2 * d) 0 ≤ s'.getD d 0 * block_shape.getD d 0 + offs.getD d 0
                  ∧ s'.getD d 0 * block_shape.getD d 0 + offs.getD d 0
                    < block_shape.getD d 0 * input.sizeAt (d + 1)
                      - crops.getD (2 * d + 1) 0) →
                (∃ st ∈ calls.flatMap (fun a => b2sStores N a input (input.sizeAt (N + 1))),
                    st.1 = [b'] ++ s' ++ [c]
                    ∧ st.2.1 = [b] ++ ((List.range N).map fun d =>
                        s'.getD d 0 * block_shape.getD d 0 + offs.getD d 0
                          - crops.getD (2 * d) 0) ++ [c])
                  ∧ out.data ([b] ++ ((List.range N).map fun d =>
                        s'.getD d 0 * block_shape.getD d 0 + offs.getD d 0
                          - crops.getD (2 * d) 0) ++ [c])
                    = input.data ([b'] ++ s' ++ [c]))) := by
  obtain ⟨hargs, hshape, calls, hp, hout⟩ :=
    batchToSpace_ok_inv N input output out block_shape crops hrun
  obtain ⟨hblk, _⟩ := (argumentsValid_iff _ _).mp hargs
  obtain ⟨_, hlen, _, hdiv, _, hshp⟩ := (batchToSpaceShapesValid_iff _ _ _ _ _).mp hshape
  obtain ⟨_, _, hsz, _⟩ := b2s_sizes N input output block_shape crops hshp
  have hos : ∀ i, out.sizeAt i = output.sizeAt i := by
    intro i; rw [hout]; rfl
  have hstoreProp : ∀ st ∈ calls.flatMap (fun a => b2sStores N a input (input.sizeAt (N + 1))),
      ∀ (b' : Nd4jLong) (s' : List Nd4jLong) (c : Nd4jLong), st.1 = [b'] ++ s' ++ [c] →
      ∃ b offs, spaceB b' (narrowToInt (out.sizeAt 0)) = some b
        ∧ blockOffsets N block_shape b' (narrowToInt (out.sizeAt 0)) = some offs
        ∧ (∀ d, d < N →
            crops.getD (2 * d) 0 ≤ s'.getD d 0 * block_shape.getD d 0 + offs.getD d 0
            ∧ s'.getD d 0 * block_shape.getD d 0 + offs.getD d 0
              < block_shape.getD d 0 * input.sizeAt (d + 1) - crops.getD (2 * d + 1) 0)
        ∧ st.2.1 = [b] ++ ((List.range N).map fun d =>
            s'.getD d 0 * block_shape.getD d 0 + offs.getD d 0 - crops.getD (2 * d) 0)
            ++ [c]
        ∧ st.2.2 = input.data ([b'] ++ s' ++ [c]) := by
    intro st hst b' s' c hsrc
    obtain ⟨m, s, c2, a, h1, h2, h3, h4, h5, h6⟩ :=
      b2s_store_inv N input output block_shape crops calls hlen hp st hst
    rw [hsrc] at h1
    obtain ⟨e1, e2, e3⟩ := index_inj h1
    subst e1 e2 e3
    rw [hos]
    exact ⟨a.space_b, a.block_offsets, h2, h3,
      (cropped_range_iff N input output block_shape crops _ _ hshp).mp h4, h5, h6⟩
  refine ⟨fun d hd => by rw [hos]; exact hsz d hd, calls, hp, ?_, hstoreProp, ?_, ?_⟩
  · rw [hout, List.map_flatMap]
    rfl
  · intro b' s' c b offs hb hoffs hex st hst hsrc
    obtain ⟨b2, offs2, hb2, hoffs2, hrange, _, _⟩ := hstoreProp st hst b' s' c hsrc
    rw [hoffs] at hoffs2
    have := Option.some.inj hoffs2
    subst this
    obtain ⟨d, hd, hnot⟩ := hex
    exact hnot (hrange d hd)
  · intro hfit b' s' c hb0 hb1 hsl hs hc0 hc1
    obtain ⟨hpe, hsb, hsize, hpos⟩ :=
      batchToSpace_prepare N input output block_shape crops hargs hshape hfit
    have hspos : 0 < output.sizeAt 0 := hpos (lt_of_le_of_lt hb0 hb1)
    have hcalls : calls = (List.range (input.sizeAt 0).toNat).map fun batch_b : Nat =>
        callArgs N output input block_shape crops (batch_b : Nd4jLong) := by
      rw [hp] at hpe
      exact Option.some.inj hpe
    have hbs := prepareArrays_block_shape N output input block_shape crops hlen
    have ho : (callArgs N output input block_shape crops b').block_offsets
        = mixedRadixDigits block_shape N (b' / output.sizeAt 0) := by
      simp only [callArgs]; rw [hbs]
    have hposl := spacePos_callArgs N output input block_shape crops b' s' hlen
    have hin := inSpace_callArgs N output input block_shape crops b'
      (spacePos N (callArgs N output input block_shape crops b') s')
    rw [hos, narrowToInt_of_lt (le_of_lt hspos) hsb]
    refine ⟨b' % output.sizeAt 0, mixedRadixDigits block_shape N (b' / output.sizeAt 0),
      cMod_of_pos hb0 hspos, blockOffsets_eq N block_shape b' _ hlen hblk hb0 hspos, ?_⟩
    intro hall
    have htrue : inSpace N (callArgs N output input block_shape crops b')
        (spacePos N (callArgs N output input block_shape crops b') s') = true := by
      rw [hin, hposl]
      intro d hd
      rw [getD_map_range N d _ hd]
      exact (cropped_range_iff N input output block_shape crops _ _ hshp).mpr hall d hd
    have hmem := (mem_cellPositions (callArgs N output input block_shape crops b')
      (input.sizeAt (N + 1)) s' c).mpr
      ⟨(inBounds_batch_shape N output input block_shape crops s').mpr ⟨hsl, hs⟩, hc0, hc1⟩
    constructor
    · refine ⟨([b'] ++ s' ++ [c],
        [b' % output.sizeAt 0] ++ ((List.range N).map fun d =>
          s'.getD d 0 * block_shape.getD d 0
            + (mixedRadixDigits block_shape N (b' / output.sizeAt 0)).getD d 0
            - crops.getD (2 * d) 0) ++ [c], input.data ([b'] ++ s' ++ [c])), ?_, rfl, rfl⟩
      rw [hcalls]
      simp only [List.mem_flatMap, List.mem_map, List.mem_range, b2sStores,
        List.mem_filterMap]
      refine ⟨_, ⟨b'.toNat, (Int.toNat_lt_toNat (lt_of_le_of_lt hb0 hb1)).mpr hb1, rfl⟩,
        (s', c), ?_, ?_⟩
      · rw [Int.toNat_of_nonneg hb0]; exact hmem
      · rw [Int.toNat_of_nonneg hb0]
        simp only [b2sStore, htrue, if_true]
        rw [hposl]
        rfl
    · have hval := b2s_value N output input block_shape crops b' s' c hlen hblk hspos hsize
        ⟨hb0, hb1⟩
        ((inBounds_batch_shape N output input block_shape crops s').mpr ⟨hsl, hs⟩) ⟨hc0, hc1⟩
        htrue output.data
      rw [hposl] at hval
      rw [hout, hcalls]
      exact hval

theorem batchToSpace_cropping_witness :
    ∃ out, _batchToSpace 2 cropInput cropOutput [1, 1] [1, 1, 1, 1] = some (Nd4jStatus.OK, out)
      ∧ (∀ d, d < 2 → out.sizeAt (d + 1) = 1)
      ∧ ∃ calls, _prepare 2 cropOutput cropInput [1, 1] [1, 1, 1, 1] = some calls
        ∧ (∀ st ∈ calls.flatMap (fun a => b2sStores 2 a cropInput (cropInput.sizeAt (2 + 1))),
            st.1 ≠ [0] ++ [0, 0] ++ [0])
        ∧ (∃ st ∈ calls.flatMap (fun a => b2sStores 2 a cropInput (cropInput.sizeAt (2 + 1))),
            st.1 = [0] ++ [1, 1] ++ [0] ∧ st.2.1 = [0, 0, 0, 0])
        ∧ out.data [0, 0, 0, 0] = cropInput.data [0, 1, 1, 0]
        ∧ cropInput.data [0, 1, 1, 0] = 11 ∧ cropOutput.data [0, 0, 0, 0] = 99 := by
  refine ⟨_, rfl, ?_⟩
  obtain ⟨hext, calls, hp, _, _, hnever, hwritten⟩ :=
    batchToSpace_cropping 2 cropInput cropOutput _ [1, 1] [1, 1, 1, 1] rfl
  refine ⟨fun d hd => by rw [hext d hd]; revert d; decide, calls, hp, ?_, ?_, ?_, by decide,
    by decide⟩
  · exact hnever 0 [0, 0] 0 0 [0, 0] (by decide) (by decide) ⟨0, by decide, by decide⟩
  · obtain ⟨b, offs, hb, hoffs, h⟩ := hwritten (by decide) 0 [1, 1] 0 (by decide) (by decide)
      rfl (by decide) (by decide) (by decide)
    have hb' : b = 0 := (Option.some.inj ((show _ = some (0 : Nd4jLong) by decide).symm.trans
      hb)).symm
    have ho' : offs = [0, 0] := (Option.some.inj
      ((show _ = some ([0, 0] : List Nd4jLong) by decide).symm.trans hoffs)).symm
    subst hb' ho'
    exact (h (by decide)).1
  · obtain ⟨b, offs, hb, hoffs, h⟩ := hwritten (by decide) 0 [1, 1] 0 (by decide) (by decide)
      rfl (by decide) (by decide) (by decide)
    have hb' : b = 0 := (Option.some.inj ((show _ = some (0 : Nd4jLong) by decide).symm.trans
      hb)).symm
    have ho' : offs = [0, 0] := (Option.some.inj
      ((show _ = some ([0, 0] : List Nd4jLong) by decide).symm.trans hoffs)).symm
    subst hb' ho'
    exact (h (by decide)).2

/-- C5: whenever `_spaceToBatch` succeeds, the batch extent of its output is
`input.batchSize * product (block)` and every output spatial extent is
`(spaceShape[d] + padBefore[d] + padAfter[d]) / blockShape[d]`; whenever `_batchToSpace`
succeeds, the batch extent of its output is `input.batchSize / product (block)`, the inverse.
Both succeed on valid arguments and shapes when the batch extent of the batch-layout tensor is
below `2^31`. -/
theorem shape_law {α : Type} [Zero α] (N : Nat) (input output : NDArray α)
    (block_shape amounts : List Nd4jLong) :
    (∀ out, _spaceToBatch N input output block_shape amounts = some (Nd4jStatus.OK, out) →
        out.sizeAt 0 = input.sizeAt 0 * blockProduct block_shape
        ∧ ∀ d, d < N → out.sizeAt (d + 1)
          = (input.sizeAt (d + 1) + amounts.getD (2 * d) 0 + amounts.getD (2 * d + 1) 0)
            / block_shape.getD d 0)
    ∧ (∀ out, _batchToSpace N input output block_shape amounts = some (Nd4jStatus.OK, out) →
        out.sizeAt 0 = input.sizeAt 0 / blockProduct block_shape
        ∧ input.sizeAt 0 = out.sizeAt 0 * blockProduct block_shape)
    ∧ (argumentsValid block_shape amounts = true →
        spaceToBatchShapesValid N input output block_shape amounts = true →
        output.sizeAt 0 < 2147483648 →
        ∃ out, _spaceToBatch N input output block_shape amounts = some (Nd4jStatus.OK, out))
    ∧ (argumentsValid block_shape amounts = true →
        batchToSpaceShapesValid N input output block_shape amounts = true →
        input.sizeAt 0 < 2147483648 →
        ∃ out, _batchToSpace N input output block_shape amounts = some (Nd4jStatus.OK, out)) := by
  refine ⟨?_, ?_, ?_, ?_⟩
  · intro out hrun
    obtain ⟨_, hshape, calls, _, hout⟩ :=
      spaceToBatch_ok_inv N input output out block_shape amounts hrun
    obtain ⟨_, _, _, _, hshp⟩ := (spaceToBatchShapesValid_iff _ _ _ _ _).mp hshape
    obtain ⟨h0, h1, _⟩ := s2b_sizes N input output block_shape amounts hshp
    have hos : ∀ i, out.sizeAt i = output.sizeAt i := by
      intro i; rw [hout]; rfl
    exact ⟨by rw [hos]; exact h0, fun d hd => by rw [hos]; exact h1 d hd⟩
  · intro out hrun
    obtain ⟨_, hshape, calls, _, hout⟩ :=
      batchToSpace_ok_inv N input output out block_shape amounts hrun
    obtain ⟨_, _, _, hdiv, _, hshp⟩ := (batchToSpaceShapesValid_iff _ _ _ _ _).mp hshape
    obtain ⟨_, g0, _, _⟩ := b2s_sizes N input output block_shape amounts hshp
    have hos : ∀ i, out.sizeAt i = output.sizeAt i := by
      intro i; rw [hout]; rfl
    exact ⟨by rw [hos]; exact g0,
      by rw [hos]; exact b2s_batch_size N input output block_shape amounts hdiv hshp⟩
  · intro hargs hshape hfit
    exact ⟨_, spaceToBatch_run N input output block_shape amounts hargs hshape hfit⟩
  · intro hargs hshape hfit
    exact ⟨_, batchToSpace_run N input output block_shape amounts hargs hshape hfit⟩

theorem shape_law_witness :
    (∃ out, _spaceToBatch 2 scenarioInput scenarioOutput [2, 2] [0, 0, 0, 0]
          = some (Nd4jStatus.OK, out)
        ∧ out.sizeAt 0 = scenarioInput.sizeAt 0 * blockProduct [2, 2]
        ∧ out.sizeAt 0 = 4
        ∧ ∀ d, d < 2 → out.sizeAt (d + 1)
          = (scenarioInput.sizeAt (d + 1) + [0, 0, 0, 0].getD (2 * d) 0
              + [0, 0, 0, 0].getD (2 * d + 1) 0) / [2, 2].getD d 0)
    ∧ ∃ out, _batchToSpace 2 scenarioOutput scenarioInput [2, 2] [0, 0, 0, 0]
          = some (Nd4jStatus.OK, out)
        ∧ out.sizeAt 0 = scenarioOutput.sizeAt 0 / blockProduct [2, 2]
        ∧ out.sizeAt 0 = 1
        ∧ scenarioOutput.sizeAt 0 = out.sizeAt 0 * blockProduct [2, 2] := by
  obtain ⟨out1, h1⟩ := (shape_law 2 scenarioInput scenarioOutput [2, 2] [0, 0, 0, 0]).2.2.1
    (by decide) (by decide) (by decide)
  obtain ⟨out2, h2⟩ := (shape_law 2 scenarioOutput scenarioInput [2, 2] [0, 0, 0, 0]).2.2.2
    (by decide) (by decide) (by decide)
  obtain ⟨a1, a2⟩ := (shape_law 2 scenarioInput scenarioOutput [2, 2] [0, 0, 0, 0]).1 out1 h1
  obtain ⟨b1, b2⟩ := (shape_law 2 scenarioOutput scenarioInput [2, 2] [0, 0, 0, 0]).2.1 out2 h2
  exact ⟨⟨out1, h1, a1, by rw [a1]; decide, a2⟩, ⟨out2, h2, b1, by rw [b1]; decide, b2⟩⟩

/-- C6: for block sizes of at least 1 and non-negative pad amounts, when
`(spaceExtent + padBefore + padAfter) % block != 0` on some spatial axis, `_spaceToBatch` fails
with `ShapeMismatch` and the output tensor is the one passed in, unchanged. -/
theorem spaceToBatch_misaligned {α : Type} [Zero α] (N : Nat) (input output : NDArray α)
    (block_shape paddings : List Nd4jLong) (hblk : ∀ b ∈ block_shape, 1 ≤ b)
    (hpad : ∀ p ∈ paddings, 0 ≤ p)
    (hmis : ∃ d, d < N ∧
      (input.sizeAt (d + 1) + paddings.getD (2 * d) 0 + paddings.getD (2 * d + 1) 0)
        % block_shape.getD d 0 ≠ 0) :
    _spaceToBatch N input output block_shape paddings
      = some (Nd4jStatus.ShapeMismatch, output) := by
  have hargs : argumentsValid block_shape paddings = true :=
    (argumentsValid_iff _ _).mpr ⟨hblk, hpad⟩
  have hshape : ¬ (spaceToBatchShapesValid N input output block_shape paddings = true) := by
    rw [spaceToBatchShapesValid_iff]
    rintro ⟨_, _, _, hdiv, _⟩
    obtain ⟨d, hd, hne⟩ := hmis
    exact hne (hdiv d hd)
  unfold _spaceToBatch
  simp [hargs, hshape]

theorem spaceToBatch_misaligned_witness :
    (∀ b ∈ [(3 : Nd4jLong), 3], 1 ≤ b) ∧ (∀ p ∈ [(0 : Nd4jLong), 0, 0, 0], 0 ≤ p)
    ∧ (∃ d, d < 2 ∧
      (scenarioInput.sizeAt (d + 1) + [(0 : Nd4jLong), 0, 0, 0].getD (2 * d) 0
          + [(0 : Nd4jLong), 0, 0, 0].getD (2 * d + 1) 0) % [(3 : Nd4jLong), 3].getD d 0 ≠ 0)
    ∧ spaceToBatch scenarioInput scenarioOutput 0 0 0 0 3
      = some (Nd4jStatus.ShapeMismatch, scenarioOutput) :=
  ⟨by decide, by decide, ⟨0, by decide, by decide⟩,
    spaceToBatch_misaligned 2 scenarioInput scenarioOutput [3, 3] [0, 0, 0, 0] (by decide)
      (by decide) ⟨0, by decide, by decide⟩⟩

/-- C9: when the batch-layout batch extent is 0, or the space-layout batch extent is 0 and the
batch-layout batch extent is `spaceBatch * product (blockShape)`, the batch loop of `_prepare`
performs no iteration: `_prepare` is defined whatever the block sizes and the space batch extent
are, zero included, it issues no `_execute` call, and both tensors are left as they were. -/
theorem prepare_empty_batch {α : Type} [Zero α] (N : Nat) (B2S : Bool) (space batch : NDArray α)
    (block_array padding_array : List Nd4jLong)
    (hreads : readsInBounds N space batch block_array padding_array = true)
    (hzero : batch.sizeAt 0 = 0
      ∨ (space.sizeAt 0 = 0 ∧ batch.sizeAt 0 = space.sizeAt 0 * blockProduct block_array)) :
    _prepare N space batch block_array padding_array = some []
      ∧ runPrepare N B2S space batch block_array padding_array = some (space, batch) := by
  have hb : batch.sizeAt 0 = 0 := by
    rcases hzero with h | ⟨h1, h2⟩
    · exact h
    · rw [h2, h1, zero_mul]
  have hp := prepare_of_empty N space batch block_array padding_array hreads hb
  refine ⟨hp, ?_⟩
  unfold runPrepare
  rw [hp]
  rfl

theorem prepare_empty_batch_witness :
    readsInBounds 1 emptySpace emptyBatch [0] [0, 0] = true
    ∧ (emptyBatch.sizeAt 0 = 0
      ∨ (emptySpace.sizeAt 0 = 0 ∧ emptyBatch.sizeAt 0 = emptySpace.sizeAt 0 * blockProduct [0]))
    ∧ _prepare 1 emptySpace emptyBatch [0] [0, 0] = some []
    ∧ runPrepare 1 true emptySpace emptyBatch [0] [0, 0] = some (emptySpace, emptyBatch) :=
  ⟨by decide, Or.inl (by decide),
    prepare_empty_batch 1 true emptySpace emptyBatch [0] [0, 0] (by decide) (Or.inl (by decide))⟩

/-! ## Element-wise form of both transforms -/

end nd4j.ops.helpers
